import Mathlib

/-!
# Verification of the brainfuq compiler and interpreter

A shallow embedding, in Lean 4, of the two Rust source files of the
repository:

* `src/verify.rs` — the CTL (eight-instruction cell-tape language)
  interpreter: character parsing, peephole fusion of adjacent `Add`/`Mov`
  ops, bracket-target resolution, and the fuel-indexed executor over a
  10 000-cell tape;
* `src/bfcc.rs` — the IR normalizer passes (`calls_terminate_blocks`,
  `calls_never_in_first_block`) and the head-motion emitter helpers
  (`gotoreg`, `gotoblock`, `gotofunc`) together with the frame
  advance/retreat strings emitted for calls, returns and runtime init.

Theorems about the claims of the specification follow the definitions.
-/

namespace Interp

/-- The typed op stream of the interpreter (`COps` in `src/verify.rs`).
`add` carries the (possibly fused) increment, `mov` the head displacement,
and `jz`/`jnz` the resolved jump target (`JmpIfZ`/`JmpIfNZ`). -/
inductive Op where
  | add (n : Int)
  | mov (n : Int)
  | put
  | jz (a : Nat)
  | jnz (a : Nat)
deriving DecidableEq, Repr

/-- Compile-phase failures of `compile` in `src/verify.rs`: the
`panic!("TODO")` on `,`, the out-of-bounds index `opsout[0]` on an empty op
stream, and the `panic!("unbalanced?")` in bracket resolution. -/
inductive CompErr where
  | getcharTodo
  | emptyProgram
  | unbalanced
deriving DecidableEq, Repr

/-- Runtime faults of `exec` in `src/verify.rs` (`InterpErr`). -/
inductive InterpErr where
  | intOverflow
  | intUnderflow
  | memOverflow
  | memUnderflow
deriving DecidableEq, Repr

/-- Mapping of one source character to an op: the eight CTL characters are
translated, `,` panics (`TODO`), and every other character is dropped. -/
def charToOp (c : Char) : Except CompErr (Option Op) :=
  if c = '+' then .ok (some (.add 1))
  else if c = '-' then .ok (some (.add (-1)))
  else if c = '>' then .ok (some (.mov 1))
  else if c = '<' then .ok (some (.mov (-1)))
  else if c = '[' then .ok (some (.jz 0))
  else if c = ']' then .ok (some (.jnz 0))
  else if c = '.' then .ok (some .put)
  else if c = ',' then .error .getcharTodo
  else .ok none

/-- The character-mapping loop of `compile`: builds the one-op-per-character
stream, dropping non-opcode characters. -/
def parseOps : List Char → Except CompErr (List Op)
  | [] => .ok []
  | c :: cs => do
    let o ← charToOp c
    let rest ← parseOps cs
    match o with
    | some op => .ok (op :: rest)
    | none => .ok rest

/-- The peephole merge of two adjacent ops (`Add(a)+Add(b) → Add(a+b)`,
`Mov(a)+Mov(b) → Mov(a+b)`), `none` when the pair does not fuse. -/
def merge2 : Op → Op → Option Op
  | .add a, .add b => some (.add (a + b))
  | .mov a, .mov b => some (.mov (a + b))
  | _, _ => none

/-- The "combine similar" fold of `compile`: `last` is the op currently at
the end of the output (`into[into.len() - 1]`), `acc` the (reversed) ops
before it. -/
def fuseGo (last : Op) (acc : List Op) : List Op → List Op
  | [] => (last :: acc).reverse
  | op :: rest =>
    match merge2 last op with
    | some m => fuseGo m acc rest
    | none => fuseGo op (last :: acc) rest

/-- Bracket-depth contribution of an op in the forward scan of the resolver
(`JmpIfZ` opens, `JmpIfNZ` closes). -/
def deltaF : Op → Int
  | .jz _ => 1
  | .jnz _ => -1
  | _ => 0

def isJnz : Op → Bool
  | .jnz _ => true
  | _ => false

def isJz : Op → Bool
  | .jz _ => true
  | _ => false

/-- Forward resolver scan: walking the ops after the `[`, the depth counter
starts at 1; the op that first brings it to 0 (necessarily a `]`) is the
match.  Returns the relative index of the match. -/
def scanF (d : Int) : List Op → Option Nat
  | [] => none
  | op :: rest =>
    let d2 := d + deltaF op
    if d2 = 0 ∧ isJnz op then some 0
    else (scanF d2 rest).map (· + 1)

/-- Swapping the two bracket ops turns the backward resolver scan into the
forward one. -/
def mirrorOp : Op → Op
  | .jz a => .jnz a
  | .jnz a => .jz a
  | op => op

/-- Backward resolver scan for a `]` at position `i`: the code walks
`j = i-1, i-2, …, 0` adding 1 at each `]` and subtracting 1 at each `[`,
returning the first `j` where the counter is 0 at a `[`.  This is exactly
the forward scan over the reversed prefix with the bracket ops swapped. -/
def scanB (d : Int) (l : List Op) : Option Nat :=
  scanF d (l.map mirrorOp)

/-- Resolution of a single op at absolute index `i` of `ops`: brackets get
their scanned target, everything else is returned unchanged; a failed scan
is the `panic!("unbalanced?")`. -/
def resolveOp (ops : List Op) (i : Nat) : Op → Except CompErr Op
  | .jz _ =>
    match scanF 1 (ops.drop (i + 1)) with
    | some r => .ok (.jz (i + 1 + r))
    | none => .error .unbalanced
  | .jnz _ =>
    match scanB 1 ((ops.take i).reverse) with
    | some r => .ok (.jnz (i - 1 - r))
    | none => .error .unbalanced
  | op => .ok op

/-- The resolver map over the suffix of `ops` starting at index `i`. -/
def resolveFrom (ops : List Op) (i : Nat) : List Op → Except CompErr (List Op)
  | [] => .ok []
  | op :: rest => do
    let r ← resolveOp ops i op
    let rs ← resolveFrom ops (i + 1) rest
    .ok (r :: rs)

/-- The "actually resolve ops" pass of `compile`. -/
def resolve (ops : List Op) : Except CompErr (List Op) :=
  resolveFrom ops 0 ops

/-- The interpreter's compile phase: map characters to ops (indexing
`opsout[0]` faults on an empty stream), fuse adjacent `Add`/`Mov` runs,
then resolve bracket targets. -/
def compile (s : String) : Except CompErr (List Op) := do
  let u ← parseOps s.toList
  match u with
  | [] => .error .emptyProgram
  | a :: rest => resolve (fuseGo a [] rest)

/-- Modelled from the spec: the "naive one-op-per-character interpreter"
against which fusion correctness is stated — identical to `compile` except
that the fusion fold is skipped, so the op stream keeps one op per opcode
character. -/
def compileUnfused (s : String) : Except CompErr (List Op) := do
  let u ← parseOps s.toList
  match u with
  | [] => .error .emptyProgram
  | _ :: _ => resolve u

/-- Tape size of `exec`: `let mut mem: [u8; 10000]`. -/
def MEMSZ : Nat := 10000

/-- Machine state of `exec`: program counter, head, tape, output (the
pushed `char`s, kept as their code points 0..255) and step counter. -/
structure St where
  pc : Nat
  mp : Nat
  tape : List Nat
  out : List Nat
  steps : Nat
deriving DecidableEq, Repr

/-- The zeroed initial state of `exec`. -/
def initSt : St :=
  { pc := 0, mp := 0, tape := List.replicate MEMSZ 0, out := [], steps := 0 }

/-- Result of one iteration of the `while pc < ops.len()` loop. -/
inductive StepRes where
  | halt
  | fault (e : InterpErr)
  | next (s : St)
deriving DecidableEq, Repr

/-- One iteration of the interpreter loop, faithful to `exec`:
`Add` checks `> 255` then `< 0`, `Mov` checks `>= mem.len()` then `< 0`,
`Putchar` pushes `mem[mp]`, jumps set `pc = a` (then `pc += 1` as every
iteration ends with the increment). -/
def step (ops : List Op) (s : St) : StepRes :=
  match ops.get? s.pc with
  | none => .halt
  | some op =>
    match op with
    | .put =>
      .next { s with out := s.out ++ [s.tape.getD s.mp 0],
                     pc := s.pc + 1, steps := s.steps + 1 }
    | .add n =>
      let v : Int := (s.tape.getD s.mp 0 : Int) + n
      if v > 255 then .fault .intOverflow
      else if v < 0 then .fault .intUnderflow
      else .next { s with tape := s.tape.set s.mp v.toNat,
                          pc := s.pc + 1, steps := s.steps + 1 }
    | .mov n =>
      let dst : Int := (s.mp : Int) + n
      if dst ≥ (MEMSZ : Int) then .fault .memOverflow
      else if dst < 0 then .fault .memUnderflow
      else .next { s with mp := dst.toNat, pc := s.pc + 1, steps := s.steps + 1 }
    | .jz a =>
      .next { s with pc := (if s.tape.getD s.mp 0 = 0 then a else s.pc) + 1,
                     steps := s.steps + 1 }
    | .jnz a =>
      .next { s with pc := (if s.tape.getD s.mp 0 ≠ 0 then a else s.pc) + 1,
                     steps := s.steps + 1 }

/-- Outcome of running the loop with a fuel bound (the Rust loop has no
bound; `timeout` marks exhausted fuel, never a behaviour of the program). -/
inductive Outcome where
  | timeout (s : St)
  | fault (e : InterpErr)
  | finished (s : St)
deriving DecidableEq, Repr

/-- Fuel-indexed interpreter loop. -/
def run (ops : List Op) : Nat → St → Outcome
  | 0, s => .timeout s
  | fuel + 1, s =>
    match step ops s with
    | .halt => .finished s
    | .fault e => .fault e
    | .next s2 => run ops fuel s2

/-- The post-run assertion of `exec`: `assert!(i == 0)` over the tape. -/
def tapeAllZero (s : St) : Bool := s.tape.all (· = 0)

/-- UTF-8 encoding of one code point below 2048, as pushed bytes; the
interpreter only ever pushes code points 0..255 (`mem[mp] as char`). -/
def utf8Enc (c : Nat) : List Nat :=
  if c < 128 then [c] else [192 + c / 64, 128 + c % 64]

/-- Byte sequence of the returned `String` output: UTF-8 of each pushed
character. -/
def utf8Bytes (out : List Nat) : List Nat := (out.map utf8Enc).flatten

/-- The eight CTL opcode characters. -/
def isOpcode (c : Char) : Bool :=
  c = '+' ∨ c = '-' ∨ c = '>' ∨ c = '<' ∨ c = '[' ∨ c = ']' ∨ c = '.' ∨ c = ','

end Interp

namespace Bfcc

/-- Operands used by the lowered instruction kinds: a local SSA value
referenced by numeric name, or a constant integer. -/
inductive Operand where
  | local (n : Nat)
  | const (v : Int)
deriving DecidableEq, Repr

/-- The instruction kinds of the IR consumed by `src/bfcc.rs` (the
variants of `llvm_ir::Instruction` the compiler matches on).  Only the
`call` discrimination matters to the normalizer passes. -/
inductive Instr where
  | call (callee : String) (dest : Option Nat)
  | alloca (dest : Nat)
  | store (value : Operand) (addr : Nat)
  | load (dest : Nat) (addr : Nat)
  | addi (dest : Nat) (op0 : Operand) (op1 : Operand)
  | icmpSlt (dest : Nat) (op0 : Operand) (op1 : Operand)
deriving DecidableEq, Repr

/-- Terminator kinds (`llvm_ir::Terminator`). -/
inductive Term where
  | br (dest : Nat)
  | condbr (cond : Operand) (tdest : Nat) (fdest : Nat)
  | ret (v : Option Operand)
deriving DecidableEq, Repr

/-- A basic block: numeric name (`llvm_ir::Name::Number`), non-terminator
instructions, and one terminator. -/
structure BB where
  name : Nat
  instrs : List Instr
  term : Term
deriving DecidableEq, Repr

/-- A function: textual name and ordered block list (the first block is the
entry). -/
structure Func where
  name : String
  blocks : List BB
deriving DecidableEq, Repr

/-- A module: its ordered function list. -/
abbrev Mod := List Func

def isCall : Instr → Bool
  | .call _ _ => true
  | _ => false

/-- Index of the first `Call` in an instruction list (the inner
`while instr < …` scan of `calls_terminate_blocks` skips non-calls and acts
at the first call it meets). -/
def firstCallIdx : List Instr → Option Nat
  | [] => none
  | ins :: rest =>
    if isCall ins then some 0 else (firstCallIdx rest).map (· + 1)

/-- `max` over the numeric block names of a function
(`.map(|b| n2usize(&b.name)).max()`); 0 for an empty list, which the code
never queries. -/
def maxName (bs : List BB) : Nat := bs.foldl (fun a b => max a b.name) 0

/-- Number of calls in a block list, the termination measure of the
splitting loop. -/
def callCount (bs : List BB) : Nat :=
  (bs.map (fun b => b.instrs.countP isCall)).sum

theorem firstCallIdx_none {l : List Instr} (h : firstCallIdx l = none) :
    l.countP isCall = 0 := by
  induction l with
  | nil => simp
  | cons ins rest ih =>
    simp only [firstCallIdx] at h
    by_cases hc : isCall ins = true
    · simp [hc] at h
    · rw [if_neg hc] at h
      rw [Option.map_eq_none'] at h
      simp [List.countP_cons, hc, ih h]

theorem firstCallIdx_get {l : List Instr} {i : Nat} (h : firstCallIdx l = some i) :
    ∃ ins, l.get? i = some ins ∧ isCall ins = true := by
  induction l generalizing i with
  | nil => exact Option.noConfusion h
  | cons a rest ih =>
    simp only [firstCallIdx] at h
    by_cases hc : isCall a = true
    · simp only [hc, ite_true, Option.some_inj] at h
      exact ⟨a, by simp [← h], hc⟩
    · rw [if_neg hc] at h
      match hr : firstCallIdx rest with
      | none => rw [hr] at h; simp at h
      | some r =>
        rw [hr] at h
        simp only [Option.map_some', Option.some_inj] at h
        obtain ⟨ins, hget, hcall⟩ := ih hr
        exact ⟨ins, by simpa [← h] using hget, hcall⟩

theorem firstCallIdx_front {l : List Instr} {i : Nat} (h : firstCallIdx l = some i) :
    ∀ j, j < i → ∀ ins, l.get? j = some ins → isCall ins = false := by
  induction l generalizing i with
  | nil => exact Option.noConfusion h
  | cons a rest ih =>
    simp only [firstCallIdx] at h
    by_cases hc : isCall a = true
    · simp only [hc, ite_true, Option.some_inj] at h
      intro j hj
      omega
    · rw [if_neg hc] at h
      match hr : firstCallIdx rest with
      | none => rw [hr] at h; simp at h
      | some r =>
        rw [hr] at h
        simp only [Option.map_some', Option.some_inj] at h
        intro j hj ins hget
        cases j with
        | zero =>
          have : a = ins := by simpa using hget
          subst this
          simpa using hc
        | succ j2 =>
          exact ih hr j2 (by omega) ins (by simpa using hget)

/-- The suffix after the first call holds strictly fewer calls than the
whole list: the termination argument of the splitting loop. -/
theorem countP_drop_lt {l : List Instr} {i : Nat} (h : firstCallIdx l = some i) :
    (l.drop (i + 1)).countP isCall < l.countP isCall := by
  obtain ⟨ins, hget, hcall⟩ := firstCallIdx_get h
  have hi : i < l.length := by
    by_contra hge
    rw [List.get?_eq_none.2 (by omega)] at hget
    exact Option.noConfusion hget
  have hsplit : l = l.take (i + 1) ++ l.drop (i + 1) := (List.take_append_drop _ _).symm
  have hcount : l.countP isCall
      = (l.take (i + 1)).countP isCall + (l.drop (i + 1)).countP isCall := by
    conv_lhs => rw [hsplit]
    exact List.countP_append _ _ _
  have hmem : ins ∈ l.take (i + 1) := by
    have : (l.take (i + 1)).get? i = some ins := by
      rwa [List.get?_take (by omega)]
    exact List.get?_mem this
  have hpos : 0 < (l.take (i + 1)).countP isCall :=
    List.countP_pos.2 ⟨ins, hmem, hcall⟩
  omega

/-- The block-splitting loop of `calls_terminate_blocks` over one
function's block list.  `done` holds the blocks already walked past
(`0..block` in the Rust indices), `todo` the current block and its
successors.  A block containing a call is split at the first call: the
prefix up to and including the call keeps the block's name and gets an
unconditional branch to a fresh block (named one past the current maximum
over the *whole* current list), which receives the remaining instructions
and the old terminator and is walked next. -/
def ctbGo (done todo : List BB) : List BB :=
  match todo with
  | [] => done
  | b :: rest =>
    match hx : firstCallIdx b.instrs with
    | none => ctbGo (done ++ [b]) rest
    | some i =>
      let nextn := maxName (done ++ b :: rest) + 1
      let left : BB := ⟨b.name, b.instrs.take (i + 1), .br nextn⟩
      let right : BB := ⟨nextn, b.instrs.drop (i + 1), b.term⟩
      ctbGo (done ++ [left]) (right :: rest)
termination_by callCount todo + todo.length
decreasing_by
  · have hb := firstCallIdx_none hx
    simp only [callCount, List.map_cons, List.sum_cons, List.length_cons, hb]
    omega
  · have hlt := countP_drop_lt hx
    simp only [callCount, List.map_cons, List.sum_cons, List.length_cons]
    omega

/-- `calls_terminate_blocks` of `src/bfcc.rs`. -/
def calls_terminate_blocks (m : Mod) : Mod :=
  m.map fun f => { f with blocks := ctbGo [] f.blocks }

/-- `calls_never_in_first_block` of `src/bfcc.rs`: a function whose entry
block contains a call gets a fresh empty entry block branching to the old
entry.  Indexing `basic_blocks[0]` of a function with no blocks panics;
this is the `none` outcome. -/
def calls_never_in_first_block (m : Mod) : Option Mod :=
  m.mapM fun f =>
    match f.blocks with
    | [] => none
    | b0 :: rest =>
      if b0.instrs.any isCall then
        let nextn := maxName (b0 :: rest) + 1
        some { f with blocks := ⟨nextn, [], .br b0.name⟩ :: b0 :: rest }
      else
        some f

/-- `"x".repeat(k)` as a character list. -/
def reps (c : Char) (k : Nat) : List Char := List.replicate k c

/-- `gotoreg` of `src/bfcc.rs`: tabs, `1 + funcns + blockns + reg` copies of
the CTL character for rightward head motion, a newline, the body produced by
the closure, then the mirrored tabs, leftward motions and newline. -/
def gotoreg (i reg funcns blockns : Nat) (body : List Char) : List Char :=
  reps '\t' i ++ reps '>' (1 + funcns + blockns + reg) ++ ['\n']
    ++ body
    ++ reps '\t' i ++ reps '<' (1 + funcns + blockns + reg) ++ ['\n']

/-- `gotoblock` of `src/bfcc.rs` (motion count `1 + bid + funcns`). -/
def gotoblock (i bid funcns : Nat) (body : List Char) : List Char :=
  reps '\t' i ++ reps '>' (1 + bid + funcns) ++ ['\n']
    ++ body
    ++ reps '\t' i ++ reps '<' (1 + bid + funcns) ++ ['\n']

/-- `gotofunc` of `src/bfcc.rs` (motion count `1 + fid`). -/
def gotofunc (i fid : Nat) (body : List Char) : List Char :=
  reps '\t' i ++ reps '>' (1 + fid) ++ ['\n']
    ++ body
    ++ reps '\t' i ++ reps '<' (1 + fid) ++ ['\n']

/-- The runtime-init frame advance emitted by `compile`
(`write!(out, "{} first frame\n", ">".repeat(16))`). -/
def firstFrameText : List Char := reps '>' 16 ++ " first frame\n".toList

/-- The frame advance emitted when lowering a non-intrinsic `Call`
(`write!(out, "\t\t{} next frame\n", ">".repeat(16))`). -/
def nextFrameText : List Char := "\t\t".toList ++ reps '>' 16 ++ " next frame\n".toList

/-- The frame retreat emitted when lowering `Ret`
(`write!(out, "\t\t{} prev frame\n", "<".repeat(16))`). -/
def prevFrameText : List Char := "\t\t".toList ++ reps '<' 16 ++ " prev frame\n".toList

/-- The CTL text appended for a non-intrinsic call once the post-call block
mask has been armed: advance one frame, set the entry flag of the new frame,
set the callee's function mask, set block mask 0 (`compile`, the
`else` branch of the `Call` arm). -/
def emitCallText (fnn : String) (calleeFid funcns : Nat) : List Char :=
  nextFrameText
    ++ "\t\t+ #__FRAME_".toList ++ fnn.toList ++ "__\n".toList
    ++ gotofunc 2 calleeFid ("\t\t+ call func #".toList ++ fnn.toList ++ "\n".toList)
    ++ gotoblock 2 funcns 0 ("\t\t+ #".toList ++ fnn.toList ++ "/b0\n".toList)

/-- The CTL text appended when lowering `Ret`: clear the entry flag, clear
the function mask, retreat one frame (`compile`, the `Ret` terminator
arm). -/
def emitRetText (fname : String) (fid : Nat) : List Char :=
  "\t\t- #ded_func_".toList ++ fname.toList ++ "\n".toList
    ++ gotofunc 2 fid ("\t\t- uncall func ".toList ++ fname.toList ++ "\n".toList)
    ++ prevFrameText

/-- Net rightward head displacement of a CTL text: occurrences of the
rightward motion character minus those of the leftward one. -/
def netDisp (l : List Char) : Int :=
  (l.count '>' : Int) - (l.count '<' : Int)

/-- The head-motion characters of a text, in order. -/
def motionChars (l : List Char) : List Char :=
  l.filter (fun c => c = '>' ∨ c = '<')

/-- Modelled from the spec: the uniform frame width formula of §3,
`1 (entry flag) + F (function count) + B_f (block count of the owning
function) + R_f (registers + scratch)`, against which the emitted
displacement is compared. -/
def frameWidthSpec (F Bf Rf : Nat) : Nat := 1 + F + Bf + Rf

end Bfcc

namespace Interp

theorem getD_set_self {l : List Nat} {i : Nat} (a : Nat) (h : i < l.length) :
    (l.set i a).getD i 0 = a := by
  rw [List.getD_eq_getElem?_getD, List.getElem?_set_self h]
  rfl

theorem getD_set_ne {i j : Nat} (l : List Nat) (a : Nat) (h : i ≠ j) :
    (l.set i a).getD j 0 = l.getD j 0 := by
  rw [List.getD_eq_getElem?_getD, List.getElem?_set_ne h, ← List.getD_eq_getElem?_getD]

/-- A fault returned by `step` is the outcome of the whole remaining run:
the Rust `return Err(..)` aborts the loop. -/
theorem run_fault_of_step {ops : List Op} {s : St} {e : InterpErr}
    (h : step ops s = .fault e) : ∀ fuel, run ops (fuel + 1) s = .fault e := by
  intro fuel
  simp [run, h]

end Interp

open Interp Bfcc in
/-- C6: evaluating `Add(n)` with `tape[mp] + n > 255` returns the typed
fault `IntOverflow`; with `tape[mp] + n < 0` it returns `IntUnderflow`; and
otherwise it stores `tape[mp] + n` at the current cell, leaving every other
cell, the head and the output unchanged.  A fault is the outcome of the
whole remaining run: no further steps execute. -/
theorem C6_add_semantics (ops : List Op) (s : St) (n : Int)
    (hop : ops.get? s.pc = some (.add n)) :
    ((s.tape.getD s.mp 0 : Int) + n > 255 →
      step ops s = .fault .intOverflow ∧
      ∀ fuel, run ops (fuel + 1) s = .fault .intOverflow) ∧
    ((s.tape.getD s.mp 0 : Int) + n < 0 →
      step ops s = .fault .intUnderflow ∧
      ∀ fuel, run ops (fuel + 1) s = .fault .intUnderflow) ∧
    (0 ≤ (s.tape.getD s.mp 0 : Int) + n → (s.tape.getD s.mp 0 : Int) + n ≤ 255 →
      step ops s = .next { s with
          tape := s.tape.set s.mp ((s.tape.getD s.mp 0 : Int) + n).toNat,
          pc := s.pc + 1, steps := s.steps + 1 } ∧
      ∀ j, j ≠ s.mp →
        (s.tape.set s.mp ((s.tape.getD s.mp 0 : Int) + n).toNat).getD j 0
          = s.tape.getD j 0) := by
  refine ⟨?_, ?_, ?_⟩
  · intro hgt
    have hstep : step ops s = .fault .intOverflow := by
      simp only [step, hop]
      rw [if_pos hgt]
    exact ⟨hstep, run_fault_of_step hstep⟩
  · intro hlt
    have hstep : step ops s = .fault .intUnderflow := by
      simp only [step, hop]
      rw [if_neg (by omega), if_pos hlt]
    exact ⟨hstep, run_fault_of_step hstep⟩
  · intro h0 h255
    refine ⟨?_, fun j hj => getD_set_ne s.tape _ (fun h => hj h.symm)⟩
    simp only [step, hop]
    rw [if_neg (by omega), if_neg (by omega)]

open Interp in
/-- Witness for C6 at a concrete input: one `Add 1` op at the zeroed
initial state stores 1 at cell 0. -/
theorem C6_add_semantics_witness :
    [Op.add 1].get? initSt.pc = some (.add 1) ∧
    step [Op.add 1] initSt =
      .next { initSt with tape := initSt.tape.set 0 1, pc := 1, steps := 1 } := by
  refine ⟨rfl, ?_⟩
  have h := (C6_add_semantics [Op.add 1] initSt 1 rfl).2.2 (by decide) (by decide)
  exact h.1

open Interp in
/-- C7: the interpreter executes against exactly 10 000 initially zero tape
cells; evaluating `Mov(n)` with `mp + n ≥ 10000` returns the typed fault
`MemOverflow`, with `mp + n < 0` it returns `MemUnderflow`, and otherwise
it sets the head to `mp + n`, leaving the tape and the output unchanged. -/
theorem C7_mov_semantics :
    MEMSZ = 10000 ∧ initSt.tape.length = 10000 ∧ (∀ v ∈ initSt.tape, v = 0) ∧
    ∀ (ops : List Op) (s : St) (n : Int), ops.get? s.pc = some (.mov n) →
      (((s.mp : Int) + n ≥ (MEMSZ : Int) →
          step ops s = .fault .memOverflow ∧
          ∀ fuel, run ops (fuel + 1) s = .fault .memOverflow) ∧
       ((s.mp : Int) + n < 0 →
          step ops s = .fault .memUnderflow ∧
          ∀ fuel, run ops (fuel + 1) s = .fault .memUnderflow) ∧
       (0 ≤ (s.mp : Int) + n → (s.mp : Int) + n < (MEMSZ : Int) →
          step ops s = .next { s with mp := ((s.mp : Int) + n).toNat,
                                      pc := s.pc + 1, steps := s.steps + 1 })) := by
  refine ⟨rfl, by rw [show initSt.tape = List.replicate MEMSZ 0 from rfl,
      List.length_replicate]; rfl,
    fun v hv => List.eq_of_mem_replicate hv, ?_⟩
  intro ops s n hop
  refine ⟨?_, ?_, ?_⟩
  · intro hge
    have hstep : step ops s = .fault .memOverflow := by
      simp only [step, hop]
      rw [if_pos hge]
    exact ⟨hstep, run_fault_of_step hstep⟩
  · intro hlt
    have hstep : step ops s = .fault .memUnderflow := by
      simp only [step, hop]
      rw [if_neg (by omega), if_pos hlt]
    exact ⟨hstep, run_fault_of_step hstep⟩
  · intro h0 hmax
    simp only [step, hop]
    rw [if_neg (by omega), if_neg (by omega)]

open Interp in
/-- Witness for C7 at a concrete input: `Mov 3` from the initial state
moves the head to cell 3; `Mov (-1)` from the initial state is a
`MemUnderflow`. -/
theorem C7_mov_semantics_witness :
    step [Op.mov 3] initSt = .next { initSt with mp := 3, pc := 1, steps := 1 } ∧
    step [Op.mov (-1)] initSt = .fault .memUnderflow := by
  constructor
  · exact (C7_mov_semantics.2.2.2 [Op.mov 3] initSt 3 rfl).2.2 (by decide) (by decide)
  · exact ((C7_mov_semantics.2.2.2 [Op.mov (-1)] initSt (-1) rfl).2.1 (by decide)).1

open Interp in
/-- C8 (amended): evaluating `Putchar` appends the current cell's value
`tape[mp]` as one *character* (code point `tape[mp]`, via `mem[mp] as
char`) to the output, so the code-point sequence of the returned output is
exactly the sequence of cell values printed, in order; the *byte* sequence
of the returned `String` is the UTF-8 encoding of those code points, which
equals the cell-value sequence when every printed value is below 128, while
each printed value of 128..255 contributes two bytes. -/
theorem C8_putchar_amended :
    (∀ (ops : List Op) (s : St), ops.get? s.pc = some .put →
      step ops s = .next { s with out := s.out ++ [s.tape.getD s.mp 0],
                                  pc := s.pc + 1, steps := s.steps + 1 }) ∧
    (∀ l : List Nat, (∀ v ∈ l, v < 128) → utf8Bytes l = l) ∧
    (∀ v : Nat, 128 ≤ v → (utf8Enc v).length = 2) := by
  refine ⟨?_, ?_, ?_⟩
  · intro ops s hop
    simp only [step, hop]
  · intro l hl
    induction l with
    | nil => rfl
    | cons v rest ih =>
      have hv : v < 128 := hl v (by simp)
      have hrest := ih (fun w hw => hl w (by simp [hw]))
      simp only [utf8Bytes, List.map_cons, List.flatten_cons] at hrest ⊢
      rw [hrest, utf8Enc, if_pos hv]
      rfl
  · intro v hv
    rw [utf8Enc, if_neg (by omega)]
    rfl

open Interp in
/-- C8 counterexample: the program `Add 200; Putchar; Add (-200)` runs to
completion printing the single cell value 200, but the byte sequence of the
returned output is the two-byte UTF-8 encoding `[195, 136]`, not `[200]` —
so the output's bytes are not the printed cell values. -/
theorem C8_counterexample :
    run [Op.add 200, Op.put, Op.add (-200)] 4 initSt =
      .finished { pc := 3, mp := 0, tape := List.replicate MEMSZ 0,
                  out := [200], steps := 3 } ∧
    utf8Bytes [200] = [195, 136] ∧ utf8Bytes [200] ≠ [200] := by
  refine ⟨rfl, rfl, by decide⟩

open Interp in
/-- C10: the interpreter's compile phase faults (the out-of-bounds index
`opsout[0]`) on every input containing none of the eight CTL opcode
characters, the empty string included; conversely `compile` only returns
normally on inputs containing at least one opcode character. -/
theorem C10_no_opcode_faults :
    (∀ s : String, (∀ c ∈ s.toList, isOpcode c = false) →
      compile s = .error .emptyProgram) ∧
    (∀ (s : String) (l : List Op), compile s = .ok l →
      ∃ c ∈ s.toList, isOpcode c = true) := by
  have hchar : ∀ c : Char, isOpcode c = false → charToOp c = .ok none := by
    intro c hc
    simp only [isOpcode, decide_eq_false_iff_not] at hc
    push_neg at hc
    obtain ⟨h1, h2, h3, h4, h5, h6, h7, h8⟩ := hc
    simp only [charToOp, if_neg h1, if_neg h2, if_neg h3, if_neg h4,
      if_neg h5, if_neg h6, if_neg h7, if_neg h8]
  have hparse : ∀ cs : List Char, (∀ c ∈ cs, isOpcode c = false) →
      parseOps cs = .ok [] := by
    intro cs hcs
    induction cs with
    | nil => rfl
    | cons c rest ih =>
      have h1 := hchar c (hcs c (by simp))
      have h2 := ih (fun d hd => hcs d (by simp [hd]))
      simp only [parseOps, h1, h2]
      rfl
  constructor
  · intro s hs
    have h := hparse s.toList hs
    simp only [compile, h]
    rfl
  · intro s l hok
    by_contra hnone
    push_neg at hnone
    have hs : ∀ c ∈ s.toList, isOpcode c = false := by
      intro c hc
      have := hnone c hc
      simpa using this
    have h := hparse s.toList hs
    rw [show compile s = .error .emptyProgram by simp only [compile, h]; rfl] at hok
    exact Except.noConfusion hok

open Interp in
/-- Witness for C10 at concrete inputs: `"xy"` (no opcode characters)
faults with the empty-program error, and `"+"` compiles normally and
indeed contains an opcode character. -/
theorem C10_no_opcode_faults_witness :
    compile "xy" = .error .emptyProgram ∧
    compile "+" = .ok [Op.add 1] ∧ (∃ c ∈ "+".toList, isOpcode c = true) := by
  refine ⟨C10_no_opcode_faults.1 "xy" (by decide), by rfl,
    C10_no_opcode_faults.2 "+" [Op.add 1] (by rfl)⟩

namespace Bfcc

theorem motionChars_reps_gt (k : Nat) : motionChars (reps '>' k) = reps '>' k := by
  simp [motionChars, reps, List.filter_replicate]

theorem motionChars_reps_lt (k : Nat) : motionChars (reps '<' k) = reps '<' k := by
  simp [motionChars, reps, List.filter_replicate]

theorem motionChars_reps_tab (k : Nat) : motionChars (reps '\t' k) = [] := by
  simp [motionChars, reps, List.filter_replicate]

theorem motionChars_newline : motionChars ['\n'] = [] := by decide

theorem count_motionChars_gt (l : List Char) :
    (motionChars l).count '>' = l.count '>' := by
  induction l with
  | nil => rfl
  | cons c rest ih =>
    by_cases h : c = '>' ∨ c = '<'
    · simp only [motionChars, List.filter_cons] at ih ⊢
      rw [if_pos (by simpa using h)]
      rcases h with h | h <;> subst h <;>
        simp_all [List.count_cons, motionChars]
    · push_neg at h
      simp only [motionChars, List.filter_cons] at ih ⊢
      rw [if_neg (by simpa using h)]
      rw [ih]
      simp [List.count_cons, h.1]

end Bfcc

open Bfcc in
/-- C9: each head-motion helper emits, as its CTL head-motion content,
`>` repeated k times, then the body's motion content, then `<` repeated k
times, with `k = 1 + fid` for `gotofunc`, `k = 1 + funcns + bid` for
`gotoblock` and `k = 1 + funcns + blockns + reg` for `gotoreg`; in
particular the helper adds equally many `>` and `<` around the body, so the
net head displacement of a helper invocation equals that of its body —
zero for a balanced body. -/
theorem C9_goto_helpers (i reg fid bid funcns blockns : Nat) (body : List Char) :
    motionChars (gotofunc i fid body)
      = reps '>' (1 + fid) ++ motionChars body ++ reps '<' (1 + fid) ∧
    motionChars (gotoblock i bid funcns body)
      = reps '>' (1 + bid + funcns) ++ motionChars body ++ reps '<' (1 + bid + funcns) ∧
    motionChars (gotoreg i reg funcns blockns body)
      = reps '>' (1 + funcns + blockns + reg) ++ motionChars body
          ++ reps '<' (1 + funcns + blockns + reg) ∧
    (gotofunc i fid body).count '>' = (1 + fid) + body.count '>' ∧
    (gotofunc i fid body).count '<' = (1 + fid) + body.count '<' ∧
    (gotoblock i bid funcns body).count '>' = (1 + bid + funcns) + body.count '>' ∧
    (gotoblock i bid funcns body).count '<' = (1 + bid + funcns) + body.count '<' ∧
    (gotoreg i reg funcns blockns body).count '>'
      = (1 + funcns + blockns + reg) + body.count '>' ∧
    (gotoreg i reg funcns blockns body).count '<'
      = (1 + funcns + blockns + reg) + body.count '<' ∧
    netDisp (gotofunc i fid body) = netDisp body ∧
    netDisp (gotoblock i bid funcns body) = netDisp body ∧
    netDisp (gotoreg i reg funcns blockns body) = netDisp body := by
  have hm : ∀ k : Nat, ∀ b : List Char,
      motionChars (reps '\t' i ++ reps '>' k ++ ['\n'] ++ b
        ++ reps '\t' i ++ reps '<' k ++ ['\n'])
      = reps '>' k ++ motionChars b ++ reps '<' k := by
    intro k b
    simp only [motionChars] at *
    simp [List.filter_append, ← motionChars_reps_gt k, ← motionChars_reps_lt k,
      motionChars, reps, List.filter_replicate]
  have hcg : ∀ k : Nat, ∀ b : List Char,
      (reps '\t' i ++ reps '>' k ++ ['\n'] ++ b
        ++ reps '\t' i ++ reps '<' k ++ ['\n']).count '>' = k + b.count '>' := by
    intro k b
    simp [reps, List.count_append, List.count_replicate]
  have hcl : ∀ k : Nat, ∀ b : List Char,
      (reps '\t' i ++ reps '>' k ++ ['\n'] ++ b
        ++ reps '\t' i ++ reps '<' k ++ ['\n']).count '<' = k + b.count '<' := by
    intro k b
    simp [reps, List.count_append, List.count_replicate]
    omega
  refine ⟨hm _ body, hm _ body, hm _ body, hcg _ body, hcl _ body, hcg _ body,
    hcl _ body, hcg _ body, hcl _ body, ?_, ?_, ?_⟩ <;>
    · simp only [netDisp, gotofunc, gotoblock, gotoreg]
      rw [hcg, hcl]
      omega

open Bfcc in
/-- C3 counterexample: at the concrete module shape of the `call_returns`
test case — 2 functions, 3 blocks in the calling function after
normalization, 15 register-plus-scratch cells (the scratch area reaches
index 14) — the frame advance the compiler emits for the call of `p` moves
the head by the hard-coded 16 cells, not by the frame width
`1 + F + B_f + R_f = 21`; the `Ret` retreat and the initial advance use the
same hard-coded 16. -/
theorem C3_counterexample :
    netDisp (emitCallText "p" 1 2) = 16 ∧
    netDisp (emitRetText "p" 1) = -16 ∧
    netDisp firstFrameText = 16 ∧
    frameWidthSpec 2 3 15 = 21 ∧
    netDisp (emitCallText "p" 1 2) ≠ (frameWidthSpec 2 3 15 : Int) := by
  refine ⟨by decide, by decide, by decide, by decide, by decide⟩

namespace Bfcc

theorem netDisp_append (a b : List Char) :
    netDisp (a ++ b) = netDisp a + netDisp b := by
  simp only [netDisp, List.count_append]
  push_cast
  ring

theorem netDisp_reps_gt (k : Nat) : netDisp (reps '>' k) = k := by
  simp [netDisp, reps, List.count_replicate]

theorem netDisp_reps_lt (k : Nat) : netDisp (reps '<' k) = -(k : Int) := by
  simp [netDisp, reps, List.count_replicate]

theorem netDisp_reps_tab (k : Nat) : netDisp (reps '\t' k) = 0 := by
  simp [netDisp, reps, List.count_replicate]

theorem netDisp_nomotion {t : List Char} (ht : ∀ c ∈ t, c ≠ '>' ∧ c ≠ '<') :
    netDisp t = 0 := by
  have h1 : t.count '>' = 0 := by
    rw [List.count_eq_zero]
    intro hmem
    exact absurd rfl (ht _ hmem).1
  have h2 : t.count '<' = 0 := by
    rw [List.count_eq_zero]
    intro hmem
    exact absurd rfl (ht _ hmem).2
  simp [netDisp, h1, h2]

end Bfcc

open Bfcc in
/-- C3 (amended): the head displacement emitted for a function call's frame
advance, the matching retreat emitted for `Ret`, and the initial advance to
frame 0 are all the same hard-coded constant 16 (`">".repeat(16)` /
`"<".repeat(16)`), independent of the module; it equals the spec's uniform
frame width `1 + F + B_f + R_f` only when that sum happens to be 16. -/
theorem C3_frame_advance_amended (fnn fname : String) (cfid fid funcns : Nat)
    (hfnn : ∀ c ∈ fnn.toList, c ≠ '>' ∧ c ≠ '<')
    (hfname : ∀ c ∈ fname.toList, c ≠ '>' ∧ c ≠ '<') :
    netDisp (emitCallText fnn cfid funcns) = 16 ∧
    netDisp (emitRetText fname fid) = -16 ∧
    netDisp firstFrameText = 16 ∧
    ∀ F Bf Rf : Nat, ((frameWidthSpec F Bf Rf : Int) = 16 ↔ 1 + F + Bf + Rf = 16) := by
  have hfn := netDisp_nomotion hfnn
  have hfm := netDisp_nomotion hfname
  refine ⟨?_, ?_, by decide, by intro F Bf Rf; simp [frameWidthSpec]; omega⟩
  · simp only [emitCallText, nextFrameText, gotofunc, gotoblock, netDisp_append,
      netDisp_reps_gt, netDisp_reps_lt, netDisp_reps_tab, hfn,
      netDisp_nomotion (t := "\t\t".toList) (by decide),
      netDisp_nomotion (t := " next frame\n".toList) (by decide),
      netDisp_nomotion (t := "\t\t+ #__FRAME_".toList) (by decide),
      netDisp_nomotion (t := "__\n".toList) (by decide),
      netDisp_nomotion (t := "\t\t+ call func #".toList) (by decide),
      netDisp_nomotion (t := "\n".toList) (by decide),
      netDisp_nomotion (t := "\t\t+ #".toList) (by decide),
      netDisp_nomotion (t := "/b0\n".toList) (by decide),
      netDisp_nomotion (t := ['\n']) (by decide)]
    ring
  · simp only [emitRetText, prevFrameText, gotofunc, netDisp_append,
      netDisp_reps_gt, netDisp_reps_lt, netDisp_reps_tab, hfm,
      netDisp_nomotion (t := "\t\t".toList) (by decide),
      netDisp_nomotion (t := " prev frame\n".toList) (by decide),
      netDisp_nomotion (t := "\t\t- #ded_func_".toList) (by decide),
      netDisp_nomotion (t := "\t\t- uncall func ".toList) (by decide),
      netDisp_nomotion (t := "\n".toList) (by decide),
      netDisp_nomotion (t := ['\n']) (by decide)]
    ring

open Bfcc in
/-- Witness for C3 (amended) at a concrete input: callee `p` (function
index 1) in a two-function module, returning function `main` (index 0). -/
theorem C3_frame_advance_amended_witness :
    netDisp (emitCallText "p" 1 2) = 16 ∧ netDisp (emitRetText "main" 0) = -16 := by
  have h := C3_frame_advance_amended "p" "main" 1 0 2 (by decide) (by decide)
  exact ⟨h.1, h.2.1⟩

namespace Bfcc

theorem firstCallIdx_take {l : List Instr} {i : Nat} (h : firstCallIdx l = some i) :
    ∀ ins ∈ l.take i, isCall ins = false := by
  induction l generalizing i with
  | nil => exact Option.noConfusion h
  | cons a rest ih =>
    simp only [firstCallIdx] at h
    by_cases hc : isCall a = true
    · simp only [hc, ite_true, Option.some_inj] at h
      subst h
      simp
    · rw [if_neg hc] at h
      match hr : firstCallIdx rest with
      | none => rw [hr] at h; simp at h
      | some r =>
        rw [hr] at h
        simp only [Option.map_some', Option.some_inj] at h
        subst h
        intro ins hins
        simp only [List.take_succ_cons, List.mem_cons] at hins
        rcases hins with rfl | hins
        · simpa using hc
        · exact ih hr ins hins

theorem countP_take_firstCall {l : List Instr} {i : Nat}
    (h : firstCallIdx l = some i) :
    (l.take (i + 1)).countP isCall = 1 := by
  obtain ⟨ins, hget, hcall⟩ := firstCallIdx_get h
  have hz : (l.take i).countP isCall = 0 :=
    List.countP_eq_zero.2 (fun a ha => by simp [firstCallIdx_take h a ha])
  rw [List.take_succ, List.countP_append, hz]
  have hgl : l[i]? = some ins := by
    rw [← List.get?_eq_getElem?]
    exact hget
  rw [hgl]
  simp [hcall]

theorem countP_split_firstCall {l : List Instr} {i : Nat}
    (h : firstCallIdx l = some i) :
    l.countP isCall = 1 + (l.drop (i + 1)).countP isCall := by
  conv_lhs => rw [← List.take_append_drop (i + 1) l]
  rw [List.countP_append, countP_take_firstCall h]

theorem firstCallIdx_none_of_countP {l : List Instr}
    (h : l.countP isCall = 0) : firstCallIdx l = none := by
  match hr : firstCallIdx l with
  | none => rfl
  | some i =>
    obtain ⟨ins, hget, hcall⟩ := firstCallIdx_get hr
    have hf : isCall ins = false := by
      simpa using List.countP_eq_zero.1 h ins (List.get?_mem hget)
    rw [hcall] at hf
    exact Bool.noConfusion hf

theorem ctbGo_nil (done : List BB) : ctbGo done [] = done := by
  rw [ctbGo]

theorem ctbGo_cons_none {b : BB} (done rest : List BB)
    (hx : firstCallIdx b.instrs = none) :
    ctbGo done (b :: rest) = ctbGo (done ++ [b]) rest := by
  rw [ctbGo]
  split
  · rfl
  · rename_i j hj
    rw [hx] at hj
    exact Option.noConfusion hj

theorem ctbGo_cons_some {b : BB} {i : Nat} (done rest : List BB)
    (hx : firstCallIdx b.instrs = some i) :
    ctbGo done (b :: rest) =
      ctbGo (done ++ [⟨b.name, b.instrs.take (i + 1),
          .br (maxName (done ++ b :: rest) + 1)⟩])
        (⟨maxName (done ++ b :: rest) + 1, b.instrs.drop (i + 1), b.term⟩ :: rest) := by
  rw [ctbGo]
  split
  · rename_i hj
    rw [hx] at hj
    exact Option.noConfusion hj
  · rename_i j hj
    rw [hx] at hj
    injection hj with h
    subst h
    rfl

/-- Induction along the recursion structure of `ctbGo`. -/
theorem ctbGo_rec (P : List BB → List BB → Prop)
    (h1 : ∀ done, P done [])
    (h2 : ∀ done b rest, firstCallIdx b.instrs = none →
      P (done ++ [b]) rest → P done (b :: rest))
    (h3 : ∀ done (b : BB) rest i, firstCallIdx b.instrs = some i →
      P (done ++ [⟨b.name, b.instrs.take (i + 1),
          .br (maxName (done ++ b :: rest) + 1)⟩])
        (⟨maxName (done ++ b :: rest) + 1, b.instrs.drop (i + 1), b.term⟩ :: rest) →
      P done (b :: rest)) :
    ∀ done todo, P done todo := by
  suffices h : ∀ N done todo, callCount todo + todo.length ≤ N → P done todo by
    intro done todo
    exact h (callCount todo + todo.length) done todo le_rfl
  intro N
  induction N with
  | zero =>
    intro done todo hle
    match todo with
    | [] => exact h1 done
    | b :: rest => simp [List.length_cons] at hle
  | succ n ih =>
    intro done todo hle
    match todo with
    | [] => exact h1 done
    | b :: rest =>
      match hx : firstCallIdx b.instrs with
      | none =>
        refine h2 done b rest hx (ih _ _ ?_)
        have hb := firstCallIdx_none hx
        simp only [callCount, List.map_cons, List.sum_cons, List.length_cons, hb] at hle ⊢
        omega
      | some i =>
        refine h3 done b rest i hx (ih _ _ ?_)
        have hs := countP_split_firstCall hx
        simp only [callCount, List.map_cons, List.sum_cons, List.length_cons] at hle ⊢
        omega

theorem ctbGo_length : ∀ done todo : List BB,
    (ctbGo done todo).length = done.length + todo.length + callCount todo := by
  refine ctbGo_rec (P := fun done todo =>
    (ctbGo done todo).length = done.length + todo.length + callCount todo) ?_ ?_ ?_
  · intro done
    simp [ctbGo_nil, callCount]
  · intro done b rest hx ih
    rw [ctbGo_cons_none done rest hx, ih]
    have hb := firstCallIdx_none hx
    simp only [callCount, List.map_cons, List.sum_cons, List.length_cons,
      List.length_append, List.length_nil, hb]
    omega
  · intro done b rest i hx ih
    rw [ctbGo_cons_some done rest hx, ih]
    have hs := countP_split_firstCall hx
    simp only [callCount, List.map_cons, List.sum_cons, List.length_cons,
      List.length_append, List.length_nil]
    omega

theorem ctbGo_calls : ∀ done todo : List BB,
    callCount (ctbGo done todo) = callCount done + callCount todo := by
  refine ctbGo_rec (P := fun done todo =>
    callCount (ctbGo done todo) = callCount done + callCount todo) ?_ ?_ ?_
  · intro done
    simp [ctbGo_nil, callCount]
  · intro done b rest hx ih
    rw [ctbGo_cons_none done rest hx, ih]
    have hb := firstCallIdx_none hx
    simp only [callCount, List.map_cons, List.sum_cons, List.map_append,
      List.sum_append, List.map_nil, List.sum_nil, hb]
    omega
  · intro done b rest i hx ih
    rw [ctbGo_cons_some done rest hx, ih]
    have hs := countP_split_firstCall hx
    simp only [callCount, List.map_cons, List.sum_cons, List.map_append,
      List.sum_append, List.map_nil, List.sum_nil, countP_take_firstCall hx]
    omega

theorem ctbGo_nocall (done todo : List BB)
    (h : ∀ b ∈ todo, b.instrs.countP isCall = 0) :
    ctbGo done todo = done ++ todo := by
  induction todo generalizing done with
  | nil => simp [ctbGo]
  | cons b rest ih =>
    rw [ctbGo, firstCallIdx_none_of_countP (h b (by simp))]
    rw [ih (done ++ [b]) (fun d hd => h d (by simp [hd]))]
    simp

end Bfcc

namespace Bfcc

/-- A one-function module whose single block ends in a call: the smallest
input on which the splitting pass is not idempotent. -/
def splitCex : Mod := [⟨"f", [⟨0, [.call "g" none], .ret none⟩]⟩]

end Bfcc

open Bfcc in
/-- C2 counterexample: on the module with one function whose single block
`0` is `[call g]; ret`, one application of `calls_terminate_blocks` yields
blocks `0: [call g]; br 1` and `1: []; ret`, but a second application
splits block `0` again (the pass splits at *every* call, willing or not),
yielding `0: [call g]; br 2`, `2: []; br 1`, `1: []; ret` — a different
block list, so the pass is not idempotent. -/
theorem C2_counterexample :
    calls_terminate_blocks (calls_terminate_blocks splitCex)
      ≠ calls_terminate_blocks splitCex ∧
    calls_terminate_blocks splitCex =
      [⟨"f", [⟨0, [.call "g" none], .br 1⟩, ⟨1, [], .ret none⟩]⟩] ∧
    calls_terminate_blocks (calls_terminate_blocks splitCex) =
      [⟨"f", [⟨0, [.call "g" none], .br 2⟩, ⟨2, [], .br 1⟩, ⟨1, [], .ret none⟩]⟩] := by
  have h1 : calls_terminate_blocks splitCex =
      [⟨"f", [⟨0, [.call "g" none], .br 1⟩, ⟨1, [], .ret none⟩]⟩] := by
    simp [calls_terminate_blocks, ctbGo, firstCallIdx, isCall, maxName, splitCex]
  have h2 : calls_terminate_blocks (calls_terminate_blocks splitCex) =
      [⟨"f", [⟨0, [.call "g" none], .br 2⟩, ⟨2, [], .br 1⟩, ⟨1, [], .ret none⟩]⟩] := by
    rw [h1]
    simp [calls_terminate_blocks, ctbGo, firstCallIdx, isCall, maxName]
  refine ⟨by rw [h2, h1]; decide, h1, h2⟩

open Bfcc in
/-- C2 (amended): `calls_terminate_blocks` is idempotent exactly on modules
without `Call` instructions, where it is the identity; on any module
containing a call, every application splits each block holding a call and
appends a fresh empty block, so applying it twice never produces the same
block list as applying it once. -/
theorem C2_idempotence_amended (m : Mod) :
    ((∀ f ∈ m, ∀ b ∈ f.blocks, b.instrs.countP isCall = 0) →
      calls_terminate_blocks m = m ∧
      calls_terminate_blocks (calls_terminate_blocks m) = calls_terminate_blocks m) ∧
    ((∃ f ∈ m, ∃ b ∈ f.blocks, b.instrs.countP isCall ≠ 0) →
      calls_terminate_blocks (calls_terminate_blocks m) ≠ calls_terminate_blocks m) := by
  constructor
  · intro hfree
    have hid : calls_terminate_blocks m = m := by
      show m.map _ = m
      conv_rhs => rw [← List.map_id m]
      rw [List.map_eq_map_iff]
      intro f hf
      rw [ctbGo_nocall [] f.blocks (hfree f hf)]
      rfl
    exact ⟨hid, by rw [hid, hid]⟩
  · rintro ⟨f, hf, b, hb, hcall⟩ heq
    -- pointwise consequence of the equality of the two mapped lists
    have hpt : ∀ g ∈ m,
        (⟨g.name, ctbGo [] (ctbGo [] g.blocks)⟩ : Func)
          = ⟨g.name, ctbGo [] g.blocks⟩ := by
      have hmm : (m.map fun g => ({ g with blocks := ctbGo [] g.blocks } : Func)).map
            (fun g => ({ g with blocks := ctbGo [] g.blocks } : Func))
          = m.map fun g => ({ g with blocks := ctbGo [] g.blocks } : Func) := heq
      rw [List.map_map] at hmm
      rw [List.map_eq_map_iff] at hmm
      intro g hg
      exact hmm g hg
    have hbad := congrArg (fun f : Func => f.blocks.length) (hpt f hf)
    have hnil : callCount ([] : List BB) = 0 := rfl
    simp only [ctbGo_length, ctbGo_calls, List.length_nil, hnil] at hbad
    have hge : 1 ≤ callCount f.blocks := by
      have hmem : b.instrs.countP isCall ∈ f.blocks.map (fun b => b.instrs.countP isCall) :=
        List.mem_map_of_mem _ hb
      -- a member bounds the sum from below
      have hsum := List.single_le_sum (l := f.blocks.map fun b => b.instrs.countP isCall)
        (fun x _ => Nat.zero_le x) _ hmem
      simp only [callCount]
      omega
    omega

namespace Bfcc

/-- A call-free one-function module. -/
def noCallMod : Mod := [⟨"main", [⟨0, [.alloca 1], .ret none⟩]⟩]

end Bfcc

open Bfcc in
/-- Witness for C2 (amended) at concrete inputs: the splitting pass leaves
the call-free module unchanged, and is not idempotent on the one-call
module. -/
theorem C2_idempotence_amended_witness :
    calls_terminate_blocks noCallMod = noCallMod ∧
    calls_terminate_blocks (calls_terminate_blocks splitCex)
      ≠ calls_terminate_blocks splitCex := by
  refine ⟨((C2_idempotence_amended noCallMod).1 (by decide)).1,
    (C2_idempotence_amended splitCex).2 ?_⟩
  exact ⟨⟨"f", [⟨0, [.call "g" none], .ret none⟩]⟩, by decide, ⟨0, [.call "g" none], .ret none⟩,
    by decide, by decide⟩

namespace Bfcc

/-- Every `Call` of the block sits at the last non-terminator position:
all earlier instructions are non-calls. -/
def callsOnlyLast (b : BB) : Prop :=
  ∀ ins ∈ b.instrs.dropLast, isCall ins = false

/-- A block whose last non-terminator is a `Call` has an unconditional
branch terminator. -/
def callEndsBr (b : BB) : Prop :=
  ∀ ins, b.instrs.getLast? = some ins → isCall ins = true → ∃ d, b.term = Term.br d

/-- The entry (first) block of the function contains no call. -/
def entryNoCall (f : Func) : Prop :=
  ∀ b0, f.blocks.head? = some b0 → ∀ ins ∈ b0.instrs, isCall ins = false

theorem firstCallIdx_lt_length {l : List Instr} {i : Nat}
    (h : firstCallIdx l = some i) : i < l.length := by
  obtain ⟨ins, hget, _⟩ := firstCallIdx_get h
  by_contra hge
  rw [List.get?_eq_none.2 (by omega)] at hget
  exact Option.noConfusion hget

/-- The central invariant of the splitting loop: every block it emits has
its calls only in last position, and ends in `Br` whenever it ends in a
call. -/
theorem ctbGo_inv : ∀ done todo : List BB,
    (∀ b ∈ done, callsOnlyLast b ∧ callEndsBr b) →
    ∀ b ∈ ctbGo done todo, callsOnlyLast b ∧ callEndsBr b := by
  refine ctbGo_rec (P := fun done todo =>
    (∀ b ∈ done, callsOnlyLast b ∧ callEndsBr b) →
    ∀ b ∈ ctbGo done todo, callsOnlyLast b ∧ callEndsBr b) ?_ ?_ ?_
  · intro done hdone
    rw [ctbGo_nil]
    exact hdone
  · intro done b rest hx ih hdone
    rw [ctbGo_cons_none done rest hx]
    refine ih ?_
    intro c hc
    rcases List.mem_append.1 hc with hc | hc
    · exact hdone c hc
    · have hb : c = b := by simpa using hc
      subst hb
      have hall : ∀ ins ∈ c.instrs, isCall ins = false := by
        intro ins hins
        have h0 := firstCallIdx_none hx
        simpa using List.countP_eq_zero.1 h0 ins hins
      constructor
      · intro ins hins
        exact hall ins (List.dropLast_subset _ hins)
      · intro ins hlast hcall
        have hmem : ins ∈ c.instrs := List.mem_of_mem_getLast? hlast
        rw [hall ins hmem] at hcall
        exact Bool.noConfusion hcall
  · intro done b rest i hx ih hdone
    rw [ctbGo_cons_some done rest hx]
    refine ih ?_
    intro c hc
    rcases List.mem_append.1 hc with hc | hc
    · exact hdone c hc
    · have hb : c = ⟨b.name, b.instrs.take (i + 1),
          .br (maxName (done ++ b :: rest) + 1)⟩ := by simpa using hc
      subst hb
      have hi : i < b.instrs.length := firstCallIdx_lt_length hx
      constructor
      · intro ins hins
        have hdl : (b.instrs.take (i + 1)).dropLast = b.instrs.take i := by
          rw [List.dropLast_eq_take, List.length_take, List.take_take]
          congr 1
          omega
        rw [show (⟨b.name, b.instrs.take (i + 1),
            .br (maxName (done ++ b :: rest) + 1)⟩ : BB).instrs
          = b.instrs.take (i + 1) from rfl, hdl] at hins
        exact firstCallIdx_take hx ins hins
      · intro ins _ _
        exact ⟨maxName (done ++ b :: rest) + 1, rfl⟩

/-- Pointwise inversion for `Option`-valued `mapM`. -/
theorem mapM_option_mem {α β : Type} {f : α → Option β} :
    ∀ {l : List α} {l2 : List β}, l.mapM f = some l2 →
      ∀ y ∈ l2, ∃ x ∈ l, f x = some y := by
  intro l
  induction l with
  | nil =>
    intro l2 h y hy
    simp only [List.mapM_nil, Option.pure_def, Option.some_inj] at h
    subst h
    simp at hy
  | cons a rest ih =>
    intro l2 h y hy
    simp only [List.mapM_cons, Option.pure_def, Option.bind_eq_bind] at h
    match ha : f a with
    | none => rw [ha] at h; simp at h
    | some b =>
      rw [ha] at h
      simp only [Option.some_bind] at h
      match hr : rest.mapM f with
      | none => rw [hr] at h; simp at h
      | some bs =>
        rw [hr] at h
        simp only [Option.some_bind, Option.some_inj] at h
        subst h
        rcases List.mem_cons.1 hy with rfl | hy
        · exact ⟨a, by simp, ha⟩
        · obtain ⟨x, hx, hfx⟩ := ih hr y hy
          exact ⟨x, by simp [hx], hfx⟩

end Bfcc

open Bfcc in
/-- C4: after running `calls_terminate_blocks` and then
`calls_never_in_first_block` on a module (the latter returning normally),
every basic block has its calls only at the last non-terminator position,
every block whose last non-terminator is a call ends in an unconditional
`Br`, and the entry block of every function contains no call. -/
theorem C4_normalizer_invariants (m m2 : Mod)
    (h : calls_never_in_first_block (calls_terminate_blocks m) = some m2) :
    ∀ f ∈ m2, (∀ b ∈ f.blocks, callsOnlyLast b ∧ callEndsBr b) ∧ entryNoCall f := by
  intro f2 hf2
  obtain ⟨f1, hf1, hstep⟩ := mapM_option_mem h f2 hf2
  -- every block of f1 = the splitting pass output satisfies the invariant
  obtain ⟨f0, hf0, hg⟩ := List.mem_map.1 hf1
  have hQ : ∀ b ∈ f1.blocks, callsOnlyLast b ∧ callEndsBr b := by
    rw [← hg]
    exact ctbGo_inv [] f0.blocks (by simp)
  match hbs : f1.blocks with
  | [] => rw [hbs] at hstep; exact Option.noConfusion hstep
  | b0 :: rest =>
    rw [hbs] at hstep
    rw [hbs] at hQ
    have hstep2 : (if (b0.instrs.any isCall) = true then
        some (⟨f1.name, ⟨maxName (b0 :: rest) + 1, [], .br b0.name⟩
          :: b0 :: rest⟩ : Func) else some f1) = some f2 := hstep
    by_cases hcall : (b0.instrs.any isCall) = true
    · rw [if_pos hcall] at hstep2
      obtain rfl : (⟨f1.name, ⟨maxName (b0 :: rest) + 1, [], .br b0.name⟩
          :: b0 :: rest⟩ : Func) = f2 := by
        simpa using hstep2
      constructor
      · intro b hb
        rcases List.mem_cons.1 hb with rfl | hb
        · exact ⟨by intro ins hins; simp at hins,
            by intro ins hlast; simp at hlast⟩
        · exact hQ b hb
      · intro bh hbh ins hins
        simp only [List.head?_cons, Option.some_inj] at hbh
        subst hbh
        simp at hins
    · rw [if_neg hcall] at hstep2
      obtain rfl : f1 = f2 := by simpa using hstep2
      refine ⟨by rw [hbs]; exact hQ, ?_⟩
      intro bh hbh ins hins
      rw [hbs] at hbh
      simp only [List.head?_cons, Option.some_inj] at hbh
      subst hbh
      simp only [List.any_eq_true, not_exists] at hcall
      by_contra hc
      simp only [Bool.not_eq_false] at hc
      exact hcall ins ⟨hins, hc⟩

namespace Bfcc

/-- A module whose entry block calls: both normalizer passes act on it. -/
def normCex : Mod := [⟨"main", [⟨0, [.call "p" none], .ret none⟩]⟩]

end Bfcc

open Bfcc in
/-- Witness for C4 at a concrete input: normalizing the one-function module
whose entry block is `[call p]; ret` yields entry `2: []; br 0`,
`0: [call p]; br 1`, `1: []; ret`, and the invariants hold of it. -/
theorem C4_normalizer_invariants_witness :
    calls_never_in_first_block (calls_terminate_blocks normCex) =
      some [⟨"main", [⟨2, [], .br 0⟩, ⟨0, [.call "p" none], .br 1⟩,
        ⟨1, [], .ret none⟩]⟩] ∧
    ∀ f ∈ [(⟨"main", [⟨2, [], .br 0⟩, ⟨0, [.call "p" none], .br 1⟩,
        ⟨1, [], .ret none⟩]⟩ : Func)],
      (∀ b ∈ f.blocks, callsOnlyLast b ∧ callEndsBr b) ∧ entryNoCall f := by
  have hp1 : calls_terminate_blocks normCex =
      [⟨"main", [⟨0, [.call "p" none], .br 1⟩, ⟨1, [], .ret none⟩]⟩] := by
    simp [calls_terminate_blocks, ctbGo, firstCallIdx, isCall, maxName, normCex]
  have hp2 : calls_never_in_first_block (calls_terminate_blocks normCex) =
      some [⟨"main", [⟨2, [], .br 0⟩, ⟨0, [.call "p" none], .br 1⟩,
        ⟨1, [], .ret none⟩]⟩] := by
    rw [hp1]
    decide
  exact ⟨hp2, C4_normalizer_invariants normCex _ hp2⟩

namespace Interp

/-- Net bracket depth of an op list under the forward-scan deltas. -/
def netF (l : List Op) : Int := (l.map deltaF).sum

/-- The declarative balance check on an op stream: running open-bracket
depth, never closing below zero, ending at zero. -/
def balGo (d : Nat) : List Op → Bool
  | [] => d == 0
  | op :: rest =>
    if isJz op then balGo (d + 1) rest
    else if isJnz op then decide (0 < d) && balGo (d - 1) rest
    else balGo d rest

/-- The declarative balance check on source characters. -/
def balCGo (d : Nat) : List Char → Bool
  | [] => d == 0
  | c :: rest =>
    if c = '[' then balCGo (d + 1) rest
    else if c = ']' then decide (0 < d) && balCGo (d - 1) rest
    else balCGo d rest

theorem netF_nil : netF [] = 0 := rfl

theorem netF_cons (op : Op) (l : List Op) : netF (op :: l) = deltaF op + netF l := by
  simp [netF]

theorem netF_append (a b : List Op) : netF (a ++ b) = netF a + netF b := by
  simp [netF]

theorem deltaF_of_isJz {op : Op} (h : isJz op = true) : deltaF op = 1 := by
  cases op <;> simp_all [isJz, deltaF]

theorem deltaF_of_isJnz {op : Op} (h : isJnz op = true) : deltaF op = -1 := by
  cases op <;> simp_all [isJnz, deltaF]

theorem deltaF_of_other {op : Op} (h1 : isJz op = false) (h2 : isJnz op = false) :
    deltaF op = 0 := by
  cases op <;> simp_all [isJz, isJnz, deltaF]

theorem deltaF_mem : ∀ op : Op, deltaF op = -1 ∨ deltaF op = 0 ∨ deltaF op = 1 := by
  intro op
  cases op <;> simp [deltaF]

/-- Arithmetic characterization of the balance check: zero net depth and
no prefix dipping below zero. -/
theorem balGo_iff : ∀ (l : List Op) (d : Nat), balGo d l = true ↔
    ((d : Int) + netF l = 0 ∧ ∀ p, 0 ≤ (d : Int) + netF (l.take p)) := by
  intro l
  induction l with
  | nil =>
    intro d
    simp [balGo, netF]
  | cons op rest ih =>
    intro d
    have hsplit : ∀ p, (op :: rest).take (p + 1) = op :: rest.take p := by
      intro p
      simp
    by_cases hz : isJz op = true
    · rw [show balGo d (op :: rest) = balGo (d + 1) rest by rw [balGo, if_pos hz]]
      rw [ih (d + 1)]
      constructor
      · rintro ⟨h1, h2⟩
        refine ⟨by rw [netF_cons, deltaF_of_isJz hz]; push_cast at h1 ⊢; omega, ?_⟩
        intro p
        match p with
        | 0 => rw [List.take_zero, netF_nil]; omega
        | q + 1 =>
          rw [hsplit q, netF_cons, deltaF_of_isJz hz]
          have := h2 q
          push_cast at this ⊢
          omega
      · rintro ⟨h1, h2⟩
        rw [netF_cons, deltaF_of_isJz hz] at h1
        refine ⟨by push_cast at h1 ⊢; omega, ?_⟩
        intro q
        have := h2 (q + 1)
        rw [hsplit q, netF_cons, deltaF_of_isJz hz] at this
        push_cast at this ⊢
        omega
    · by_cases hnz : isJnz op = true
      · rw [show balGo d (op :: rest) = (decide (0 < d) && balGo (d - 1) rest) by
          rw [balGo, if_neg (by simp [hz]), if_pos hnz]]
        rw [Bool.and_eq_true, ih (d - 1), decide_eq_true_iff]
        constructor
        · rintro ⟨hd, h1, h2⟩
          have hd1 : ((d - 1 : Nat) : Int) = (d : Int) - 1 := by omega
          refine ⟨by rw [netF_cons, deltaF_of_isJnz hnz]; rw [hd1] at h1; omega, ?_⟩
          intro p
          match p with
          | 0 => rw [List.take_zero, netF_nil]; omega
          | q + 1 =>
            rw [hsplit q, netF_cons, deltaF_of_isJnz hnz]
            have := h2 q
            rw [hd1] at this
            omega
        · rintro ⟨h1, h2⟩
          rw [netF_cons, deltaF_of_isJnz hnz] at h1
          have hp1 := h2 1
          rw [show (op :: rest).take 1 = [op] by simp, show netF [op] = deltaF op by
            simp [netF], deltaF_of_isJnz hnz] at hp1
          have hd : 0 < d := by omega
          have hd1 : ((d - 1 : Nat) : Int) = (d : Int) - 1 := by omega
          refine ⟨hd, by rw [hd1]; omega, ?_⟩
          intro q
          have := h2 (q + 1)
          rw [hsplit q, netF_cons, deltaF_of_isJnz hnz] at this
          rw [hd1]
          omega
      · have hz2 : isJz op = false := by simpa using hz
        have hnz2 : isJnz op = false := by simpa using hnz
        rw [show balGo d (op :: rest) = balGo d rest by
          rw [balGo, if_neg (by simp [hz2]), if_neg (by simp [hnz2])]]
        rw [ih d]
        constructor
        · rintro ⟨h1, h2⟩
          refine ⟨by rw [netF_cons, deltaF_of_other hz2 hnz2]; omega, ?_⟩
          intro p
          match p with
          | 0 => rw [List.take_zero, netF_nil]; omega
          | q + 1 =>
            rw [hsplit q, netF_cons, deltaF_of_other hz2 hnz2]
            have := h2 q
            omega
        · rintro ⟨h1, h2⟩
          rw [netF_cons, deltaF_of_other hz2 hnz2] at h1
          refine ⟨by omega, ?_⟩
          intro q
          have := h2 (q + 1)
          rw [hsplit q, netF_cons, deltaF_of_other hz2 hnz2] at this
          omega

end Interp

namespace Interp

/-- Discrete intermediate-value success of the forward scan: if the depth
starts at least 1 and the whole suffix would drive it to 0 or below, the
scan finds a match. -/
theorem scanF_isSome : ∀ (l : List Op) (d : Int), 1 ≤ d → d + netF l ≤ 0 →
    (scanF d l).isSome = true := by
  intro l
  induction l with
  | nil =>
    intro d h1 h2
    rw [netF_nil] at h2
    omega
  | cons op rest ih =>
    intro d h1 h2
    rw [scanF]
    by_cases hhit : d + deltaF op = 0 ∧ isJnz op = true
    · rw [if_pos hhit]
      rfl
    · rw [if_neg hhit]
      rw [show ∀ o : Option Nat, (Option.map (fun x => x + 1) o).isSome = o.isSome
        from fun o => by cases o <;> rfl]
      refine ih (d + deltaF op) ?_ ?_
      · rcases deltaF_mem op with hd | hd | hd
        · have : isJnz op = true := by
            cases op <;> simp_all [deltaF, isJnz]
          have : ¬(d + deltaF op = 0) := fun hc => hhit ⟨hc, this⟩
          omega
        · omega
        · omega
      · rw [netF_cons] at h2
        omega

/-- Soundness of the forward scan: the returned index is the first position
holding a `]` at which the running depth reaches zero. -/
theorem scanF_sound : ∀ (l : List Op) (d : Int) (r : Nat), scanF d l = some r →
    (∃ a, l.get? r = some (.jnz a)) ∧ d + netF (l.take (r + 1)) = 0 ∧
    ∀ q op2, q < r → l.get? q = some op2 → isJnz op2 = true →
      d + netF (l.take (q + 1)) ≠ 0 := by
  intro l
  induction l with
  | nil =>
    intro d r h
    exact Option.noConfusion h
  | cons op rest ih =>
    intro d r h
    rw [scanF] at h
    by_cases hhit : d + deltaF op = 0 ∧ isJnz op = true
    · rw [if_pos hhit] at h
      injection h with h
      subst h
      obtain ⟨hd0, hj⟩ := hhit
      refine ⟨?_, ?_, ?_⟩
      · match op, hj with
        | .jnz a, _ => exact ⟨a, rfl⟩
      · rw [show (op :: rest).take 1 = [op] by simp,
          show netF [op] = deltaF op by simp [netF]]
        exact hd0
      · intro q op2 hq
        omega
    · rw [if_neg hhit] at h
      match hr : scanF (d + deltaF op) rest with
      | none => rw [hr] at h; exact Option.noConfusion h
      | some r0 =>
        rw [hr] at h
        simp only [Option.map_some', Option.some_inj] at h
        subst h
        obtain ⟨ha, hnet, hmin⟩ := ih (d + deltaF op) r0 hr
        refine ⟨by simpa using ha, ?_, ?_⟩
        · rw [show (op :: rest).take (r0 + 1 + 1) = op :: rest.take (r0 + 1) by simp,
            netF_cons]
          omega
        · intro q op2 hq hget hj
          match q with
          | 0 =>
            have hop : op = op2 := by simpa using hget
            subst hop
            rw [show (op :: rest).take 1 = [op] by simp,
              show netF [op] = deltaF op by simp [netF]]
            intro hc
            exact hhit ⟨hc, hj⟩
          | q0 + 1 =>
            have hget2 : rest.get? q0 = some op2 := by simpa using hget
            have := hmin q0 op2 (by omega) hget2 hj
            rw [show (op :: rest).take (q0 + 1 + 1) = op :: rest.take (q0 + 1) by simp,
              netF_cons]
            omega

end Interp

namespace Interp

theorem netF_reverse (l : List Op) : netF l.reverse = netF l := by
  rw [netF, netF, List.map_reverse, List.sum_reverse]

theorem netF_map_mirror (l : List Op) : netF (l.map mirrorOp) = -netF l := by
  induction l with
  | nil => simp [netF]
  | cons op rest ih =>
    simp only [List.map_cons, netF_cons, ih]
    have : deltaF (mirrorOp op) = -deltaF op := by
      cases op <;> simp [mirrorOp, deltaF]
    omega

theorem netF_take_add_drop (l : List Op) (p : Nat) :
    netF l = netF (l.take p) + netF (l.drop p) := by
  conv_lhs => rw [← List.take_append_drop p l]
  rw [netF_append]

/-- A list all of whose `[` ops have a successful forward scan has
non-positive net depth. -/
theorem netF_nonpos_of_scans : ∀ (n : Nat) (l : List Op), l.length ≤ n →
    (∀ i a, l.get? i = some (.jz a) → (scanF 1 (l.drop (i + 1))).isSome = true) →
    netF l ≤ 0 := by
  intro n
  induction n with
  | zero =>
    intro l hl _
    match l with
    | [] => rw [netF_nil]
  | succ m ih =>
    intro l hl hscan
    match l with
    | [] => rw [netF_nil]
    | op :: rest =>
      match hop : op with
      | .jz a =>
        have hs := hscan 0 a (by simp)
        simp only [List.drop_succ_cons, List.drop_zero] at hs
        match hr : scanF 1 rest with
        | none => rw [hr] at hs; exact Bool.noConfusion hs
        | some r =>
          obtain ⟨_, hnet, _⟩ := scanF_sound rest 1 r hr
          have hdrop : netF (rest.drop (r + 1)) ≤ 0 := by
            refine ih (rest.drop (r + 1)) ?_ ?_
            · have := List.length_drop (r + 1) rest
              simp only [List.length_cons] at hl
              omega
            · intro i b hget
              have hget2 : rest.get? (r + 1 + i) = some (.jz b) := by
                rwa [List.get?_drop] at hget
              have hsc := hscan (r + 1 + i + 1) b (by simpa using hget2)
              simp only [List.drop_succ_cons] at hsc
              rw [List.drop_drop]
              rwa [show r + 1 + i + 1 = r + 1 + (i + 1) from by omega] at hsc
          rw [netF_cons, netF_take_add_drop rest (r + 1)]
          simp only [deltaF]
          omega
      | .jnz a =>
        rw [netF_cons]
        have : netF rest ≤ 0 := by
          refine ih rest (by simp only [List.length_cons] at hl; omega) ?_
          intro i b hget
          have := hscan (i + 1) b (by simpa using hget)
          simpa using this
        simp only [deltaF]
        omega
      | .add k =>
        rw [netF_cons]
        have : netF rest ≤ 0 := by
          refine ih rest (by simp only [List.length_cons] at hl; omega) ?_
          intro i b hget
          have := hscan (i + 1) b (by simpa using hget)
          simpa using this
        simp only [deltaF]
        omega
      | .mov k =>
        rw [netF_cons]
        have : netF rest ≤ 0 := by
          refine ih rest (by simp only [List.length_cons] at hl; omega) ?_
          intro i b hget
          have := hscan (i + 1) b (by simpa using hget)
          simpa using this
        simp only [deltaF]
        omega
      | .put =>
        rw [netF_cons]
        have : netF rest ≤ 0 := by
          refine ih rest (by simp only [List.length_cons] at hl; omega) ?_
          intro i b hget
          have := hscan (i + 1) b (by simpa using hget)
          simpa using this
        simp only [deltaF]
        omega

end Interp

namespace Interp

theorem mirror_mirror (op : Op) : mirrorOp (mirrorOp op) = op := by
  cases op <;> rfl

/-- A list all of whose `]` ops have a successful backward scan has
non-negative net depth: the mirrored reverse satisfies the forward-scan
hypothesis. -/
theorem netF_nonneg_of_backscans (l : List Op)
    (hscan : ∀ i a, l.get? i = some (.jnz a) →
      (scanB 1 ((l.take i).reverse)).isSome = true) :
    0 ≤ netF l := by
  have hM : netF ((l.reverse).map mirrorOp) ≤ 0 := by
    refine netF_nonpos_of_scans ((l.reverse).map mirrorOp).length _ le_rfl ?_
    intro i a hget
    have hi : i < l.length := by
      have := List.get?_eq_some.1 hget
      obtain ⟨h, _⟩ := this
      simpa using h
    have hrev : (l.reverse).get? i = some (.jnz a) := by
      have h1 : ((l.reverse).map mirrorOp).get? i = ((l.reverse).get? i).map mirrorOp := by
        rw [List.get?_eq_getElem?, List.get?_eq_getElem?, List.getElem?_map]
      rw [h1] at hget
      match hx : (l.reverse).get? i with
      | none => rw [hx] at hget; exact Option.noConfusion hget
      | some op =>
        rw [hx] at hget
        simp only [Option.map_some', Option.some_inj] at hget
        have hop : op = .jnz a := by
          have h2 := congrArg mirrorOp hget
          rwa [mirror_mirror] at h2
        exact congrArg some hop
    have horig : l.get? (l.length - 1 - i) = some (.jnz a) := by
      rw [List.get?_eq_getElem?] at hrev ⊢
      rwa [List.getElem?_reverse (by simpa using hi)] at hrev
    have hb := hscan (l.length - 1 - i) a horig
    rw [scanB] at hb
    have hdrop : ((l.reverse).map mirrorOp).drop (i + 1)
        = ((l.take (l.length - 1 - i)).reverse).map mirrorOp := by
      rw [← List.map_drop, List.drop_reverse,
        show l.length - (i + 1) = l.length - 1 - i from by omega]
    rwa [hdrop]
  rw [netF_map_mirror, netF_reverse] at hM
  omega

end Interp

namespace Interp

/-- A list all of whose `]` ops have a successful backward scan never dips
below depth zero on any prefix: at the first dip the backward scan from the
offending `]` would exhibit an earlier, even lower prefix. -/
theorem prefix_nonneg_of_backscans (l : List Op)
    (hscan : ∀ i a, l.get? i = some (.jnz a) →
      (scanB 1 ((l.take i).reverse)).isSome = true) :
    ∀ p, 0 ≤ netF (l.take p) := by
  by_contra hneg
  push_neg at hneg
  have hex : ∃ p, netF (l.take p) < 0 := by
    obtain ⟨p, hp⟩ := hneg
    exact ⟨p, hp⟩
  have h0 := Nat.find_spec hex
  have hmin := fun q (hq : q < Nat.find hex) => Nat.find_min hex hq
  set m0 := Nat.find hex with hm0
  match hm : m0 with
  | 0 =>
    rw [List.take_zero, netF_nil] at h0
    omega
  | i + 1 =>
    have hprev : 0 ≤ netF (l.take i) := by
      have := hmin i (by omega)
      omega
    have hi : i < l.length := by
      by_contra hge
      push_neg at hge
      have e1 : l.take (i + 1) = l := List.take_of_length_le (by omega)
      have e2 : l.take i = l := List.take_of_length_le (by omega)
      rw [e1] at h0
      rw [e2] at hprev
      omega
    obtain ⟨op, hget⟩ : ∃ op, l.get? i = some op := by
      match hx : l.get? i with
      | none =>
        rw [List.get?_eq_none] at hx
        omega
      | some op => exact ⟨op, rfl⟩
    have hsucc : l.take (i + 1) = l.take i ++ [op] := by
      rw [List.take_succ]
      have : l[i]? = some op := by rwa [← List.get?_eq_getElem?]
      rw [this]
      rfl
    have hnet1 : netF (l.take (i + 1)) = netF (l.take i) + deltaF op := by
      rw [hsucc, netF_append]
      simp [netF]
    have hdop : deltaF op = -1 ∧ netF (l.take i) = 0 := by
      rcases deltaF_mem op with hd | hd | hd <;> rw [hd] at hnet1 <;> omega
    obtain ⟨a, rfl⟩ : ∃ a, op = .jnz a := by
      match op, hdop.1 with
      | .jnz a, _ => exact ⟨a, rfl⟩
    have hb := hscan i a hget
    rw [scanB] at hb
    match hr : scanF 1 (((l.take i).reverse).map mirrorOp) with
    | none => rw [hr] at hb; exact Bool.noConfusion hb
    | some r =>
      obtain ⟨⟨b, hgetr⟩, hnet2, _⟩ := scanF_sound _ 1 r hr
      have hlen : ((l.take i).reverse).length = i := by
        simp only [List.length_reverse, List.length_take]
        omega
      have hrlt : r < i := by
        have h3 := (List.get?_eq_some.1 hgetr).fst
        simp only [List.length_map] at h3
        rw [hlen] at h3
        exact h3
      have hmt : (((l.take i).reverse).map mirrorOp).take (r + 1)
          = (((l.take i).reverse).take (r + 1)).map mirrorOp :=
        (List.map_take _ _ _).symm
      rw [hmt, netF_map_mirror] at hnet2
      have hlen2 : (l.take i).length = i := by
        rw [List.length_take]
        omega
      have hrt : ((l.take i).reverse).take (r + 1)
          = ((l.take i).drop (i - (r + 1))).reverse := by
        rw [List.take_reverse, hlen2]
      rw [hrt, netF_reverse] at hnet2
      have hsplit := netF_take_add_drop (l.take i) (i - (r + 1))
      rw [List.take_take, show min (i - (r + 1)) i = i - (r + 1) from by omega] at hsplit
      have hj : netF (l.take (i - (r + 1))) < 0 := by
        have h2 := hdop.2
        omega
      have := hmin (i - (r + 1)) (by omega)
      omega

end Interp

namespace Interp

theorem resolveOp_other {ops : List Op} {i : Nat} {op : Op}
    (h1 : isJz op = false) (h2 : isJnz op = false) :
    resolveOp ops i op = .ok op := by
  cases op <;> simp_all [isJz, isJnz, resolveOp]

theorem netF_take_succ {u : List Op} {i : Nat} {op : Op}
    (h : u.get? i = some op) :
    netF (u.take (i + 1)) = netF (u.take i) + deltaF op := by
  rw [List.take_succ]
  have : u[i]? = some op := by rwa [← List.get?_eq_getElem?]
  rw [this]
  rw [show (some op).toList = [op] from rfl, netF_append]
  simp [netF]

theorem resolveFrom_nil (ops : List Op) (i : Nat) :
    resolveFrom ops i [] = .ok [] := rfl

theorem resolveFrom_cons (ops : List Op) (i : Nat) (op : Op) (rest : List Op) :
    resolveFrom ops i (op :: rest) =
      match resolveOp ops i op with
      | .error e => .error e
      | .ok op2 =>
        match resolveFrom ops (i + 1) rest with
        | .error e => .error e
        | .ok rs => .ok (op2 :: rs) := by
  rw [resolveFrom]
  cases hx : resolveOp ops i op
  · rfl
  · cases hr : resolveFrom ops (i + 1) rest <;> rfl

theorem resolveFrom_length {ops : List Op} :
    ∀ {l : List Op} {i : Nat} {r : List Op}, resolveFrom ops i l = .ok r →
      r.length = l.length := by
  intro l
  induction l with
  | nil =>
    intro i r h
    rw [resolveFrom_nil] at h
    injection h with h
    rw [← h]
  | cons op rest ih =>
    intro i r h
    rw [resolveFrom_cons] at h
    match hx : resolveOp ops i op with
    | .error e => rw [hx] at h; exact Except.noConfusion h
    | .ok op2 =>
      rw [hx] at h
      match hr : resolveFrom ops (i + 1) rest with
      | .error e => rw [hr] at h; exact Except.noConfusion h
      | .ok rs =>
        rw [hr] at h
        injection h with h
        rw [← h, List.length_cons, List.length_cons, ih hr]

theorem resolveFrom_get {ops : List Op} :
    ∀ {l : List Op} {i : Nat} {r : List Op}, resolveFrom ops i l = .ok r →
      ∀ q op, l.get? q = some op →
        ∃ op2, resolveOp ops (i + q) op = .ok op2 ∧ r.get? q = some op2 := by
  intro l
  induction l with
  | nil =>
    intro i r _ q op hget
    exact Option.noConfusion hget
  | cons op0 rest ih =>
    intro i r h q op hget
    rw [resolveFrom_cons] at h
    match hx : resolveOp ops i op0 with
    | .error e => rw [hx] at h; exact Except.noConfusion h
    | .ok op2 =>
      rw [hx] at h
      match hr : resolveFrom ops (i + 1) rest with
      | .error e => rw [hr] at h; exact Except.noConfusion h
      | .ok rs =>
        rw [hr] at h
        injection h with h
        subst h
        match q with
        | 0 =>
          have : op0 = op := by simpa using hget
          subst this
          exact ⟨op2, by simpa using hx, by simp⟩
        | q0 + 1 =>
          have hget2 : rest.get? q0 = some op := by simpa using hget
          obtain ⟨op3, h1, h2⟩ := ih hr q0 op hget2
          refine ⟨op3, ?_, by simpa using h2⟩
          rwa [show i + (q0 + 1) = i + 1 + q0 from by omega]

theorem resolveFrom_ok {ops : List Op} :
    ∀ {l : List Op} {i : Nat},
      (∀ q op, l.get? q = some op → ∃ op2, resolveOp ops (i + q) op = .ok op2) →
      ∃ r, resolveFrom ops i l = .ok r := by
  intro l
  induction l with
  | nil =>
    intro i _
    exact ⟨[], rfl⟩
  | cons op0 rest ih =>
    intro i hall
    obtain ⟨op2, hop2⟩ := hall 0 op0 (by simp)
    obtain ⟨rs, hrs⟩ := ih (fun q op hget => by
      obtain ⟨op3, h3⟩ := hall (q + 1) op (by simpa using hget)
      exact ⟨op3, by rwa [show i + (q + 1) = i + 1 + q from by omega] at h3⟩)
    refine ⟨op2 :: rs, ?_⟩
    rw [resolveFrom_cons, show resolveOp ops i op0 = .ok op2 from hop2, hrs]

end Interp

namespace Interp

/-- On a balanced op stream every bracket's scan succeeds, so resolution
returns normally. -/
theorem resolve_ok_of_bal {u : List Op} (hb : balGo 0 u = true) :
    ∃ n, resolve u = .ok n := by
  obtain ⟨hnetu, hpref⟩ := (balGo_iff u 0).1 hb
  rw [show ((0 : Nat) : Int) = 0 from rfl, zero_add] at hnetu
  have hpref2 : ∀ p, 0 ≤ netF (u.take p) := by
    intro p
    have := hpref p
    rwa [show ((0 : Nat) : Int) = 0 from rfl, zero_add] at this
  refine resolveFrom_ok ?_
  intro q op hget
  by_cases hz : isJz op = true
  · obtain ⟨t, rfl⟩ : ∃ t, op = .jz t := by
      match op, hz with
      | .jz t, _ => exact ⟨t, rfl⟩
    have hts : netF (u.take (q + 1)) = netF (u.take q) + 1 := by
      rw [netF_take_succ hget]
      rfl
    have hdrop : 1 + netF (u.drop (q + 1)) ≤ 0 := by
      have hsplit := netF_take_add_drop u (q + 1)
      have := hpref2 q
      omega
    have hs := scanF_isSome (u.drop (q + 1)) 1 le_rfl (by omega)
    obtain ⟨r, hr⟩ := Option.isSome_iff_exists.1 hs
    exact ⟨.jz (q + 1 + r), by rw [show (0 : Nat) + q = q from by omega, resolveOp, hr]⟩
  · by_cases hnz : isJnz op = true
    · obtain ⟨t, rfl⟩ : ∃ t, op = .jnz t := by
        match op, hnz with
        | .jnz t, _ => exact ⟨t, rfl⟩
      have hts : netF (u.take (q + 1)) = netF (u.take q) + -1 := by
        rw [netF_take_succ hget]
        rfl
      have hnet : netF (((u.take q).reverse).map mirrorOp) = -netF (u.take q) := by
        rw [netF_map_mirror, netF_reverse]
      have hs : (scanB 1 ((u.take q).reverse)).isSome = true := by
        rw [scanB]
        refine scanF_isSome _ 1 le_rfl ?_
        rw [hnet]
        have := hpref2 (q + 1)
        omega
      rw [scanB] at hs
      obtain ⟨r, hr⟩ := Option.isSome_iff_exists.1 hs
      refine ⟨.jnz (q - 1 - r), ?_⟩
      rw [show (0 : Nat) + q = q from by omega, resolveOp, scanB, hr]
    · have hz2 : isJz op = false := by simpa using hz
      have hnz2 : isJnz op = false := by simpa using hnz
      exact ⟨op, resolveOp_other hz2 hnz2⟩

/-- Successful resolution forces the op stream to be balanced. -/
theorem bal_of_resolve_ok {u n : List Op} (h : resolve u = .ok n) :
    balGo 0 u = true := by
  have hf : ∀ i a, u.get? i = some (.jz a) →
      (scanF 1 (u.drop (i + 1))).isSome = true := by
    intro i a hget
    obtain ⟨op2, hro, _⟩ := resolveFrom_get h i _ hget
    rw [show (0 : Nat) + i = i from by omega, resolveOp] at hro
    match hs : scanF 1 (u.drop (i + 1)) with
    | none => rw [hs] at hro; exact Except.noConfusion hro
    | some r => rfl
  have hbk : ∀ i a, u.get? i = some (.jnz a) →
      (scanB 1 ((u.take i).reverse)).isSome = true := by
    intro i a hget
    obtain ⟨op2, hro, _⟩ := resolveFrom_get h i _ hget
    rw [show (0 : Nat) + i = i from by omega, resolveOp] at hro
    match hs : scanB 1 ((u.take i).reverse) with
    | none => rw [hs] at hro; exact Except.noConfusion hro
    | some r => rfl
  have h1 : netF u ≤ 0 := netF_nonpos_of_scans u.length u le_rfl hf
  have h2 : 0 ≤ netF u := netF_nonneg_of_backscans u hbk
  have h3 : ∀ p, 0 ≤ netF (u.take p) := prefix_nonneg_of_backscans u hbk
  refine (balGo_iff u 0).2 ⟨by omega, ?_⟩
  intro p
  have := h3 p
  omega

end Interp

namespace Interp

def isAdd : Op → Bool
  | .add _ => true
  | _ => false

def isMov : Op → Bool
  | .mov _ => true
  | _ => false

/-- Two ops fuse exactly when they are both `Add` or both `Mov`. -/
def mergeable : Op → Op → Bool
  | .add _, .add _ => true
  | .mov _, .mov _ => true
  | _, _ => false

/-- Maximal runs of fusable ops: the grouping the fold of `compile`
collapses. -/
def chunks : List Op → List (List Op)
  | [] => []
  | a :: l =>
    match chunks l with
    | [] => [[a]]
    | c :: rest =>
      if mergeable a (c.headD a) then (a :: c) :: rest else [a] :: c :: rest

def addVal : Op → Int
  | .add n => n
  | _ => 0

def movVal : Op → Int
  | .mov n => n
  | _ => 0

/-- The fused image of one chunk. -/
def combo : List Op → Op
  | [] => .put
  | a :: r =>
    match a with
    | .add _ => .add ((a :: r).map addVal).sum
    | .mov _ => .mov ((a :: r).map movVal).sum
    | op => op

/-- Shape invariant of a chunk: nonempty, and either all `Add`, all `Mov`,
or a single unfusable op. -/
def goodChunk (c : List Op) : Prop :=
  c ≠ [] ∧ ((∀ x ∈ c, isAdd x = true) ∨ (∀ x ∈ c, isMov x = true) ∨
    (∃ op, c = [op] ∧ isAdd op = false ∧ isMov op = false))

theorem combo_single (op : Op) : combo [op] = op := by
  cases op <;> simp [combo, addVal, movVal]

theorem chunks_flatten : ∀ l : List Op, (chunks l).flatten = l := by
  intro l
  induction l with
  | nil => rfl
  | cons a l ih =>
    rw [chunks]
    match hc : chunks l with
    | [] =>
      rw [hc] at ih
      simp only [List.flatten_nil] at ih
      simp [← ih]
    | c :: rest =>
      rw [hc] at ih
      show (if mergeable a (c.headD a) = true
        then (a :: c) :: rest else [a] :: c :: rest).flatten = a :: l
      by_cases hm : mergeable a (c.headD a) = true
      · rw [if_pos hm]
        simp only [List.flatten_cons] at ih ⊢
        simp [ih]
      · rw [if_neg hm]
        simp only [List.flatten_cons] at ih ⊢
        simp [ih]

theorem chunks_cons_shape (a : Op) (l : List Op) :
    ∃ c1 rest, chunks (a :: l) = (a :: c1) :: rest := by
  rw [chunks]
  match chunks l with
  | [] => exact ⟨[], [], rfl⟩
  | c :: rest =>
    show ∃ c1 r2, (if mergeable a (c.headD a) = true
      then (a :: c) :: rest else [a] :: c :: rest) = (a :: c1) :: r2
    by_cases hm : mergeable a (c.headD a) = true
    · rw [if_pos hm]
      exact ⟨c, rest, rfl⟩
    · rw [if_neg hm]
      exact ⟨[], c :: rest, rfl⟩

theorem mergeable_kind {a b : Op} (h : mergeable a b = true) :
    (isAdd a = true ∧ isAdd b = true) ∨ (isMov a = true ∧ isMov b = true) := by
  cases a <;> cases b <;> simp_all [mergeable, isAdd, isMov]

theorem chunks_good : ∀ l : List Op, ∀ c ∈ chunks l, goodChunk c := by
  intro l
  induction l with
  | nil => intro c hc; simp [chunks] at hc
  | cons a l ih =>
    intro c hc
    rw [chunks] at hc
    match hcl : chunks l with
    | [] =>
      rw [hcl] at hc
      have : c = [a] := by simpa using hc
      subst this
      refine ⟨by simp, ?_⟩
      by_cases ha : isAdd a = true
      · exact Or.inl (by simpa using ha)
      · by_cases hv : isMov a = true
        · exact Or.inr (Or.inl (by simpa using hv))
        · exact Or.inr (Or.inr ⟨a, rfl, by simpa using ha, by simpa using hv⟩)
    | c0 :: rest =>
      rw [hcl] at hc
      have hc3 : c ∈ (if mergeable a (c0.headD a) = true
          then (a :: c0) :: rest else [a] :: c0 :: rest) := hc
      have hgood0 : goodChunk c0 := ih c0 (by rw [hcl]; simp)
      by_cases hm : mergeable a (c0.headD a) = true
      · rw [if_pos hm] at hc3
        rcases List.mem_cons.1 hc3 with rfl | hc2
        · -- c = a :: c0 with a mergeable with c0's head
          obtain ⟨hne, hcase⟩ := hgood0
          match c0, hne with
          | b :: c0t, _ =>
            simp only [List.headD_cons] at hm
            rcases mergeable_kind hm with ⟨ha, hb⟩ | ⟨ha, hb⟩
            · refine ⟨by simp, Or.inl ?_⟩
              intro x hx
              rcases List.mem_cons.1 hx with rfl | hx2
              · exact ha
              · rcases hcase with hall | hall | ⟨op, hop, h1, h2⟩
                · exact hall x hx2
                · have hab := hall b (by simp)
                  cases b <;> simp_all [isAdd, isMov]
                · have : b :: c0t = [op] := hop
                  injection this with hb2 ht
                  subst hb2
                  subst ht
                  have : x = b := by simpa using hx2
                  subst this
                  rw [h1] at hb
                  exact Bool.noConfusion hb
            · refine ⟨by simp, Or.inr (Or.inl ?_)⟩
              intro x hx
              rcases List.mem_cons.1 hx with rfl | hx2
              · exact ha
              · rcases hcase with hall | hall | ⟨op, hop, h1, h2⟩
                · have hab := hall b (by simp)
                  cases b <;> simp_all [isAdd, isMov]
                · exact hall x hx2
                · have : b :: c0t = [op] := hop
                  injection this with hb2 ht
                  subst hb2
                  subst ht
                  have : x = b := by simpa using hx2
                  subst this
                  rw [h2] at hb
                  exact Bool.noConfusion hb
        · exact ih c (by rw [hcl]; simp [hc2])
      · rw [if_neg hm] at hc3
        rcases List.mem_cons.1 hc3 with rfl | hc2
        · refine ⟨by simp, ?_⟩
          by_cases ha : isAdd a = true
          · exact Or.inl (by simpa using ha)
          · by_cases hv : isMov a = true
            · exact Or.inr (Or.inl (by simpa using hv))
            · exact Or.inr (Or.inr ⟨a, rfl, by simpa using ha, by simpa using hv⟩)
        · exact ih c (by rw [hcl]; exact hc2)

end Interp

namespace Interp

theorem merge2_none {a b : Op} (h : merge2 a b = none) : mergeable a b = false := by
  cases a <;> cases b <;> simp_all [merge2, mergeable]

theorem merge2_some_mergeable {a b m : Op} (h : merge2 a b = some m) :
    mergeable a b = true ∧ mergeable m b = true := by
  match a, b, h with
  | .add x, .add y, h =>
    injection h with h
    subst h
    exact ⟨rfl, rfl⟩
  | .mov x, .mov y, h =>
    injection h with h
    subst h
    exact ⟨rfl, rfl⟩

theorem mergeable_congr {a b : Op} (h : mergeable a b = true) :
    ∀ x, mergeable a x = mergeable b x := by
  intro x
  cases a <;> cases b <;> cases x <;> simp_all [mergeable]

theorem chunks_ne_nil {l : List Op} {c : List Op} (h : c ∈ chunks l) : c ≠ [] :=
  (chunks_good l c h).1

/-- Replacing the head of a list by a fusable op of the same kind keeps the
chunk structure, only changing the head of the first chunk. -/
theorem chunks_same_kind {m op : Op} (l : List Op) (h : mergeable m op = true) :
    ∃ c1 rest, chunks (op :: l) = (op :: c1) :: rest ∧
      chunks (m :: l) = (m :: c1) :: rest := by
  rw [chunks, chunks]
  match hc : chunks l with
  | [] => exact ⟨[], [], rfl, rfl⟩
  | c :: rest =>
    have hne : c ≠ [] := chunks_ne_nil (by rw [hc]; simp)
    match c, hne with
    | b :: ct, _ =>
      show (∃ c1 r2, (if mergeable op b = true
          then (op :: b :: ct) :: rest else [op] :: (b :: ct) :: rest) = (op :: c1) :: r2 ∧
        (if mergeable m b = true
          then (m :: b :: ct) :: rest else [m] :: (b :: ct) :: rest) = (m :: c1) :: r2)
      rw [mergeable_congr h b]
      by_cases hm : mergeable op b = true
      · rw [if_pos hm, if_pos hm]
        exact ⟨b :: ct, rest, rfl, rfl⟩
      · rw [if_neg hm, if_neg hm]
        exact ⟨[], (b :: ct) :: rest, rfl, rfl⟩

theorem combo_merge {a op m : Op} (h : merge2 a op = some m) (c1 : List Op) :
    combo (a :: op :: c1) = combo (m :: c1) := by
  match a, op, m, h with
  | .add x, .add y, _, h =>
    injection h with h
    subst h
    simp only [combo, List.map_cons, List.sum_cons, addVal]
    rw [Op.add.injEq]
    ring
  | .mov x, .mov y, _, h =>
    injection h with h
    subst h
    simp only [combo, List.map_cons, List.sum_cons, movVal]
    rw [Op.mov.injEq]
    ring

/-- The fusion fold of `compile` computes exactly the chunkwise merge. -/
theorem fuse_eq : ∀ (l : List Op) (a : Op) (acc : List Op),
    fuseGo a acc l = acc.reverse ++ (chunks (a :: l)).map combo := by
  intro l
  induction l with
  | nil =>
    intro a acc
    rw [fuseGo, show chunks [a] = [[a]] from rfl]
    simp [combo_single]
  | cons op l ih =>
    intro a acc
    rw [fuseGo]
    obtain ⟨c1, rest, hshape⟩ := chunks_cons_shape op l
    match hm2 : merge2 a op with
    | some m =>
      show fuseGo m acc l = acc.reverse ++ List.map combo (chunks (a :: op :: l))
      rw [ih m acc]
      obtain ⟨hma, hmm⟩ := merge2_some_mergeable hm2
      obtain ⟨c1', rest', hsh1, hsh2⟩ := chunks_same_kind l hmm
      rw [hshape] at hsh1
      injection hsh1 with h1 h2
      injection h1 with _ h3
      subst h3
      subst h2
      have hch : chunks (a :: op :: l) = (a :: op :: c1) :: rest := by
        rw [chunks, hshape]
        show (if mergeable a ((op :: c1).headD a) = true
          then (a :: op :: c1) :: rest else [a] :: (op :: c1) :: rest) = (a :: op :: c1) :: rest
        rw [List.headD_cons, if_pos hma]
      rw [hch, hsh2, List.map_cons, List.map_cons, combo_merge hm2 c1]
    | none =>
      show fuseGo op (a :: acc) l = acc.reverse ++ List.map combo (chunks (a :: op :: l))
      rw [ih op (a :: acc)]
      have hch : chunks (a :: op :: l) = [a] :: (op :: c1) :: rest := by
        rw [chunks, hshape]
        show (if mergeable a ((op :: c1).headD a) = true
          then (a :: op :: c1) :: rest else [a] :: (op :: c1) :: rest)
          = [a] :: (op :: c1) :: rest
        rw [List.headD_cons, if_neg (by rw [merge2_none hm2]; simp)]
      rw [hch, List.map_cons, combo_single, ← hshape]
      simp

end Interp

namespace Interp

theorem balGo_cons (d : Nat) (op : Op) (rest : List Op) :
    balGo d (op :: rest) =
      if isJz op then balGo (d + 1) rest
      else if isJnz op then decide (0 < d) && balGo (d - 1) rest
      else balGo d rest := rfl

theorem balGo_skip : ∀ (l rest : List Op) (d : Nat),
    (∀ op ∈ l, isJz op = false ∧ isJnz op = false) →
    balGo d (l ++ rest) = balGo d rest := by
  intro l
  induction l with
  | nil => intro rest d _; rfl
  | cons op l ih =>
    intro rest d hl
    obtain ⟨h1, h2⟩ := hl op (by simp)
    rw [List.cons_append, balGo_cons, if_neg (by simp [h1]), if_neg (by simp [h2])]
    exact ih rest d (fun x hx => hl x (by simp [hx]))

theorem addChunk_nonbracket {c : List Op} (h : ∀ x ∈ c, isAdd x = true) :
    ∀ x ∈ c, isJz x = false ∧ isJnz x = false := by
  intro x hx
  have := h x hx
  cases x <;> simp_all [isAdd, isJz, isJnz]

theorem movChunk_nonbracket {c : List Op} (h : ∀ x ∈ c, isMov x = true) :
    ∀ x ∈ c, isJz x = false ∧ isJnz x = false := by
  intro x hx
  have := h x hx
  cases x <;> simp_all [isMov, isJz, isJnz]

theorem combo_addChunk {c : List Op} (hne : c ≠ []) (h : ∀ x ∈ c, isAdd x = true) :
    isJz (combo c) = false ∧ isJnz (combo c) = false := by
  match c, hne with
  | a :: r, _ =>
    have := h a (by simp)
    cases a <;> simp_all [isAdd, combo, isJz, isJnz]

theorem combo_movChunk {c : List Op} (hne : c ≠ []) (h : ∀ x ∈ c, isMov x = true) :
    isJz (combo c) = false ∧ isJnz (combo c) = false := by
  match c, hne with
  | a :: r, _ =>
    have := h a (by simp)
    cases a <;> simp_all [isMov, combo, isJz, isJnz]

/-- Fusion does not disturb the balance check: chunkwise, an `Add`/`Mov`
run and its fused image both skip, and an unfusable op is kept verbatim. -/
theorem balGo_chunks : ∀ D : List (List Op), (∀ c ∈ D, goodChunk c) →
    ∀ d, balGo d D.flatten = balGo d (D.map combo) := by
  intro D
  induction D with
  | nil => intro _ d; rfl
  | cons c D ih =>
    intro hgood d
    have hc := hgood c (by simp)
    have hD : ∀ c2 ∈ D, goodChunk c2 := fun c2 h2 => hgood c2 (List.mem_cons_of_mem _ h2)
    obtain ⟨hne, hcase⟩ := hc
    rw [List.flatten_cons, List.map_cons]
    rcases hcase with hall | hall | ⟨op, rfl, h1, h2⟩
    · rw [balGo_skip c _ d (addChunk_nonbracket hall)]
      obtain ⟨hz, hnz⟩ := combo_addChunk hne hall
      rw [balGo_cons, if_neg (by simp [hz]), if_neg (by simp [hnz])]
      exact ih hD d
    · rw [balGo_skip c _ d (movChunk_nonbracket hall)]
      obtain ⟨hz, hnz⟩ := combo_movChunk hne hall
      rw [balGo_cons, if_neg (by simp [hz]), if_neg (by simp [hnz])]
      exact ih hD d
    · rw [combo_single, List.singleton_append]
      cases op with
      | jz a =>
        show balGo (d + 1) D.flatten = balGo (d + 1) (List.map combo D)
        exact ih hD (d + 1)
      | jnz a =>
        show (decide (0 < d) && balGo (d - 1) D.flatten)
          = (decide (0 < d) && balGo (d - 1) (List.map combo D))
        rw [ih hD (d - 1)]
      | put =>
        show balGo d D.flatten = balGo d (List.map combo D)
        exact ih hD d
      | add n =>
        show balGo d D.flatten = balGo d (List.map combo D)
        exact ih hD d
      | mov n =>
        show balGo d D.flatten = balGo d (List.map combo D)
        exact ih hD d

/-- Balance of the unfused op stream equals balance of its fused image. -/
theorem balGo_fuse (u : List Op) (d : Nat) :
    balGo d u = balGo d ((chunks u).map combo) := by
  conv_lhs => rw [← chunks_flatten u]
  exact balGo_chunks (chunks u) (chunks_good u) d

end Interp

namespace Interp

theorem parseOps_cons (c : Char) (cs : List Char) :
    parseOps (c :: cs) =
      match charToOp c with
      | .error e => .error e
      | .ok o =>
        match parseOps cs with
        | .error e => .error e
        | .ok rest =>
          match o with
          | some op => .ok (op :: rest)
          | none => .ok rest := by
  rw [parseOps]
  cases hx : charToOp c
  · rfl
  · cases hr : parseOps cs
    · rfl
    · rename_i o rest
      cases o <;> rfl

theorem charToOp_cases (c : Char) :
    (c = '[' ∧ charToOp c = .ok (some (.jz 0))) ∨
    (c = ']' ∧ charToOp c = .ok (some (.jnz 0))) ∨
    (charToOp c = .error .getcharTodo) ∨
    (∃ op, charToOp c = .ok (some op) ∧ isJz op = false ∧ isJnz op = false) ∨
    (charToOp c = .ok none) := by
  by_cases h1 : c = '+'
  · subst h1
    exact Or.inr (Or.inr (Or.inr (Or.inl ⟨.add 1, rfl, rfl, rfl⟩)))
  by_cases h2 : c = '-'
  · subst h2
    exact Or.inr (Or.inr (Or.inr (Or.inl ⟨.add (-1), rfl, rfl, rfl⟩)))
  by_cases h3 : c = '>'
  · subst h3
    exact Or.inr (Or.inr (Or.inr (Or.inl ⟨.mov 1, rfl, rfl, rfl⟩)))
  by_cases h4 : c = '<'
  · subst h4
    exact Or.inr (Or.inr (Or.inr (Or.inl ⟨.mov (-1), rfl, rfl, rfl⟩)))
  by_cases h5 : c = '['
  · subst h5
    exact Or.inl ⟨rfl, rfl⟩
  by_cases h6 : c = ']'
  · subst h6
    exact Or.inr (Or.inl ⟨rfl, rfl⟩)
  by_cases h7 : c = '.'
  · subst h7
    exact Or.inr (Or.inr (Or.inr (Or.inl ⟨.put, rfl, rfl, rfl⟩)))
  by_cases h8 : c = ','
  · subst h8
    exact Or.inr (Or.inr (Or.inl rfl))
  refine Or.inr (Or.inr (Or.inr (Or.inr ?_)))
  rw [charToOp, if_neg h1, if_neg h2, if_neg h3, if_neg h4, if_neg h5,
    if_neg h6, if_neg h7, if_neg h8]

/-- Parsing preserves the bracket sequence, hence the balance check. -/
theorem parse_bal : ∀ (cs : List Char) (u : List Op), parseOps cs = .ok u →
    ∀ d, balCGo d cs = balGo d u := by
  intro cs
  induction cs with
  | nil =>
    intro u h d
    have h2 : (Except.ok [] : Except CompErr (List Op)) = .ok u := h
    injection h2 with h2
    subst h2
    rfl
  | cons c cs ih =>
    intro u h d
    rw [parseOps_cons] at h
    rcases charToOp_cases c with ⟨rfl, hco⟩ | ⟨rfl, hco⟩ | hco | ⟨op, hco, hz, hnz⟩ | hco <;>
      rw [hco] at h
    · -- '['
      match hr : parseOps cs with
      | .error e => rw [hr] at h; exact Except.noConfusion h
      | .ok rest =>
        rw [hr] at h
        injection h with h
        subst h
        rw [show balCGo d ('[' :: cs) = balCGo (d + 1) cs from rfl]
        rw [show balGo d (Op.jz 0 :: rest) = balGo (d + 1) rest from rfl]
        exact ih rest hr (d + 1)
    · -- ']'
      match hr : parseOps cs with
      | .error e => rw [hr] at h; exact Except.noConfusion h
      | .ok rest =>
        rw [hr] at h
        injection h with h
        subst h
        rw [show balCGo d (']' :: cs) = (decide (0 < d) && balCGo (d - 1) cs) from rfl]
        rw [show balGo d (Op.jnz 0 :: rest)
          = (decide (0 < d) && balGo (d - 1) rest) from rfl]
        rw [ih rest hr (d - 1)]
    · exact Except.noConfusion h
    · match hr : parseOps cs with
      | .error e => rw [hr] at h; exact Except.noConfusion h
      | .ok rest =>
        rw [hr] at h
        injection h with h
        subst h
        have hc1 : balCGo d (c :: cs) = balCGo d cs := by
          rw [balCGo, if_neg ?h61, if_neg ?h62]
          case h61 =>
            intro hcc
            subst hcc
            rw [charToOp] at hco
            simp_all
            subst hco
            simp [isJz] at hz
          case h62 =>
            intro hcc
            subst hcc
            rw [charToOp] at hco
            simp_all
            subst hco
            simp [isJnz] at hnz
        rw [hc1, balGo_cons, if_neg (by simp [hz]), if_neg (by simp [hnz])]
        exact ih rest hr d
    · match hr : parseOps cs with
      | .error e => rw [hr] at h; exact Except.noConfusion h
      | .ok rest =>
        rw [hr] at h
        injection h with h
        subst h
        have hc1 : balCGo d (c :: cs) = balCGo d cs := by
          rw [balCGo, if_neg ?h71, if_neg ?h72]
          case h71 =>
            intro hcc
            subst hcc
            rw [charToOp] at hco
            simp_all
          case h72 =>
            intro hcc
            subst hcc
            rw [charToOp] at hco
            simp_all
        rw [hc1]
        exact ih _ hr d

end Interp

namespace Interp

theorem isJnz_mirror (op : Op) : isJnz (mirrorOp op) = isJz op := by
  cases op <;> rfl

/-- Soundness of the backward scan for a `]` at position `i` of `V`
(stated over the original list): the match is the nearest earlier `[`
closing the depth, i.e. the segment from it to `i` has net depth 1 and no
later `[` achieves this. -/
theorem scanB_sound {V : List Op} {i r : Nat} (hi : i ≤ V.length)
    (h : scanB 1 ((V.take i).reverse) = some r) :
    r < i ∧ (∃ t, V.get? (i - 1 - r) = some (.jz t)) ∧
    netF ((V.drop (i - 1 - r)).take (i - (i - 1 - r))) = 1 ∧
    ∀ j t2, i - 1 - r < j → j < i → V.get? j = some (.jz t2) →
      netF ((V.drop j).take (i - j)) ≠ 1 := by
  rw [scanB] at h
  obtain ⟨⟨t', hgetL⟩, hnetL, hminL⟩ := scanF_sound _ 1 r h
  have hlentake : (V.take i).length = i := by
    rw [List.length_take]
    omega
  have hrlt : r < i := by
    have h2 := (List.get?_eq_some.1 hgetL).fst
    simp only [List.length_map, List.length_reverse] at h2
    omega
  have hLget : ∀ q, q < i →
      (((V.take i).reverse).map mirrorOp).get? q = (V.get? (i - 1 - q)).map mirrorOp := by
    intro q hq
    rw [List.get?_eq_getElem?, List.getElem?_map,
      List.getElem?_reverse (by rw [hlentake]; omega), hlentake,
      show (V.take i)[i - 1 - q]? = V[i - 1 - q]? from List.getElem?_take_of_lt (by omega),
      ← List.get?_eq_getElem?]
  have hLnet : ∀ q, q < i →
      netF ((((V.take i).reverse).map mirrorOp).take (q + 1))
        = -netF ((V.drop (i - 1 - q)).take (i - (i - 1 - q))) := by
    intro q hq
    rw [← List.map_take, netF_map_mirror, List.take_reverse, hlentake, netF_reverse,
      List.drop_take, show i - (q + 1) = i - 1 - q from by omega]
  refine ⟨hrlt, ?_, ?_, ?_⟩
  · rw [hLget r hrlt] at hgetL
    match hv : V.get? (i - 1 - r) with
    | none => rw [hv] at hgetL; exact Option.noConfusion hgetL
    | some op =>
      rw [hv] at hgetL
      simp only [Option.map_some', Option.some_inj] at hgetL
      have hop : op = .jz t' := by
        have h2 := congrArg mirrorOp hgetL
        rwa [mirror_mirror] at h2
      exact ⟨t', congrArg some hop⟩
  · rw [hLnet r hrlt] at hnetL
    omega
  · intro j t2 hj1 hj2 hget hc
    have hq : i - 1 - j < r := by omega
    have hjq : i - 1 - (i - 1 - j) = j := by omega
    have hgetq : (((V.take i).reverse).map mirrorOp).get? (i - 1 - j)
        = some (mirrorOp (.jz t2)) := by
      rw [hLget (i - 1 - j) (by omega), hjq, hget]
      rfl
    have heq : (1 : Int)
        + netF ((((V.take i).reverse).map mirrorOp).take (i - 1 - j + 1)) = 0 := by
      rw [hLnet (i - 1 - j) (by omega), hjq, hc]
      ring
    exact hminL (i - 1 - j) (mirrorOp (.jz t2)) hq hgetq (by rw [isJnz_mirror]; rfl) heq

theorem resolveOp_shape {ops : List Op} {i : Nat} {op op2 : Op}
    (h : resolveOp ops i op = .ok op2) :
    deltaF op2 = deltaF op ∧ isJnz op2 = isJnz op ∧ isJz op2 = isJz op := by
  match op with
  | .jz t =>
    rw [resolveOp] at h
    match hs : scanF 1 (ops.drop (i + 1)) with
    | none => rw [hs] at h; exact Except.noConfusion h
    | some r =>
      rw [hs] at h
      injection h with h
      rw [← h]
      exact ⟨rfl, rfl, rfl⟩
  | .jnz t =>
    rw [resolveOp] at h
    match hs : scanB 1 ((ops.take i).reverse) with
    | none => rw [hs] at h; exact Except.noConfusion h
    | some r =>
      rw [hs] at h
      injection h with h
      rw [← h]
      exact ⟨rfl, rfl, rfl⟩
  | .add n => injection h with h; rw [← h]; exact ⟨rfl, rfl, rfl⟩
  | .mov n => injection h with h; rw [← h]; exact ⟨rfl, rfl, rfl⟩
  | .put => injection h with h; rw [← h]; exact ⟨rfl, rfl, rfl⟩

theorem resolveFrom_deltaMap {ops : List Op} :
    ∀ {l : List Op} {i : Nat} {r : List Op}, resolveFrom ops i l = .ok r →
      r.map deltaF = l.map deltaF := by
  intro l
  induction l with
  | nil =>
    intro i r h
    rw [resolveFrom_nil] at h
    injection h with h
    rw [← h]
  | cons op rest ih =>
    intro i r h
    rw [resolveFrom_cons] at h
    match hx : resolveOp ops i op with
    | .error e => rw [hx] at h; exact Except.noConfusion h
    | .ok op2 =>
      rw [hx] at h
      match hr : resolveFrom ops (i + 1) rest with
      | .error e => rw [hr] at h; exact Except.noConfusion h
      | .ok rs =>
        rw [hr] at h
        injection h with h
        rw [← h, List.map_cons, List.map_cons, ih hr, (resolveOp_shape hx).1]

end Interp

namespace Interp

theorem compile_eq (s : String) :
    compile s =
      match parseOps s.toList with
      | .error e => .error e
      | .ok [] => .error .emptyProgram
      | .ok (a :: rest) => resolve (fuseGo a [] rest) := by
  rw [compile]
  cases hp : parseOps s.toList
  · rfl
  · rename_i u
    cases u <;> rfl

theorem netF_slice_eq {ops V : List Op} (h : ops.map deltaF = V.map deltaF)
    (m k : Nat) : netF ((ops.drop m).take k) = netF ((V.drop m).take k) := by
  rw [netF, netF, List.map_take, List.map_take, List.map_drop, List.map_drop, h]

theorem get?_of_lt {V : List Op} {i : Nat} (hi : i < V.length) :
    ∃ op, V.get? i = some op := by
  match hx : V.get? i with
  | some op => exact ⟨op, rfl⟩
  | none =>
    rw [List.get?_eq_none] at hx
    omega

theorem resolve_get_inv {V ops : List Op} (hres : resolve V = .ok ops)
    {i : Nat} {op2 : Op} (h : ops.get? i = some op2) :
    ∃ opV, V.get? i = some opV ∧ resolveOp V i opV = .ok op2 ∧
      isJnz op2 = isJnz opV ∧ isJz op2 = isJz opV := by
  have hlen := resolveFrom_length hres
  have hi : i < V.length := by
    have := (List.get?_eq_some.1 h).fst
    omega
  obtain ⟨opV, hget⟩ := get?_of_lt hi
  obtain ⟨op2', hro, hr2⟩ := resolveFrom_get hres i opV hget
  rw [show (0 : Nat) + i = i from by omega] at hro
  have heq : op2' = op2 := by
    rw [h] at hr2
    injection hr2 with h9
    exact h9.symm
  subst heq
  obtain ⟨_, hs2, hs3⟩ := resolveOp_shape hro
  exact ⟨opV, hget, hro, hs2, hs3⟩

theorem resolve_jnz_out {V ops : List Op} (hres : resolve V = .ok ops)
    {p : Nat} {t : Nat} (h : V.get? p = some (.jnz t)) :
    ∃ t2, ops.get? p = some (.jnz t2) := by
  obtain ⟨op2, hro, hr2⟩ := resolveFrom_get hres p _ h
  obtain ⟨_, hs2, _⟩ := resolveOp_shape hro
  have : isJnz op2 = true := by rw [hs2]; rfl
  match op2, this with
  | .jnz t2, _ => exact ⟨t2, hr2⟩

theorem resolve_jz_out {V ops : List Op} (hres : resolve V = .ok ops)
    {p : Nat} {t : Nat} (h : V.get? p = some (.jz t)) :
    ∃ t2, ops.get? p = some (.jz t2) := by
  obtain ⟨op2, hro, hr2⟩ := resolveFrom_get hres p _ h
  obtain ⟨_, _, hs3⟩ := resolveOp_shape hro
  have : isJz op2 = true := by rw [hs3]; rfl
  match op2, this with
  | .jz t2, _ => exact ⟨t2, hr2⟩

/-- The target stored in each resolved `JmpIfZ` is its matching `JmpIfNZ`:
the first later `]` at which the depth counter returns to zero. -/
theorem resolved_jz_spec {V ops : List Op} (hres : resolve V = .ok ops) :
    ∀ i a, ops.get? i = some (.jz a) →
      i < a ∧ (∃ t, ops.get? a = some (.jnz t)) ∧
      1 + netF ((ops.drop (i + 1)).take (a - i)) = 0 ∧
      ∀ j t2, i < j → j < a → ops.get? j = some (.jnz t2) →
        1 + netF ((ops.drop (i + 1)).take (j - i)) ≠ 0 := by
  intro i a h
  have hdel := resolveFrom_deltaMap hres
  obtain ⟨opV, hgetV, hro, hjnz, hjz⟩ := resolve_get_inv hres h
  have hz : isJz opV = true := by rw [← hjz]; rfl
  obtain ⟨t0, rfl⟩ : ∃ t0, opV = .jz t0 := by
    match opV, hz with
    | .jz t0, _ => exact ⟨t0, rfl⟩
  rw [resolveOp] at hro
  match hs : scanF 1 (V.drop (i + 1)) with
  | none => rw [hs] at hro; exact Except.noConfusion hro
  | some r =>
    rw [hs] at hro
    injection hro with hro
    injection hro with hro
    obtain ⟨⟨t, hvj⟩, hnet, hmin⟩ := scanF_sound _ 1 r hs
    rw [List.get?_drop] at hvj
    have ha : a = i + 1 + r := hro.symm
    subst ha
    refine ⟨by omega, resolve_jnz_out hres hvj, ?_, ?_⟩
    · rw [netF_slice_eq hdel]
      rwa [show i + 1 + r - i = r + 1 from by omega]
    · intro j t2 hj1 hj2 hgetj
      obtain ⟨opVj, hgetVj, _, hjnzj, _⟩ := resolve_get_inv hres hgetj
      have : isJnz opVj = true := by rw [← hjnzj]; rfl
      rw [netF_slice_eq hdel]
      have hq : j - i - 1 < r := by omega
      have hgd : (V.drop (i + 1)).get? (j - i - 1) = some opVj := by
        rw [List.get?_drop, show i + 1 + (j - i - 1) = j from by omega]
        exact hgetVj
      have := hmin (j - i - 1) opVj hq hgd this
      rwa [show j - i - 1 + 1 = j - i from by omega] at this

/-- The target stored in each resolved `JmpIfNZ` is its matching `JmpIfZ`:
the nearest earlier `[` from which the segment up to the `]` has net
depth one. -/
theorem resolved_jnz_spec {V ops : List Op} (hres : resolve V = .ok ops) :
    ∀ i a, ops.get? i = some (.jnz a) →
      a < i ∧ (∃ t, ops.get? a = some (.jz t)) ∧
      netF ((ops.drop a).take (i - a)) = 1 ∧
      ∀ j t2, a < j → j < i → ops.get? j = some (.jz t2) →
        netF ((ops.drop j).take (i - j)) ≠ 1 := by
  intro i a h
  have hdel := resolveFrom_deltaMap hres
  have hlen := resolveFrom_length hres
  have hi : i < V.length := by
    have := (List.get?_eq_some.1 h).fst
    omega
  obtain ⟨opV, hgetV, hro, hjnz, hjz⟩ := resolve_get_inv hres h
  have hz : isJnz opV = true := by rw [← hjnz]; rfl
  obtain ⟨t0, rfl⟩ : ∃ t0, opV = .jnz t0 := by
    match opV, hz with
    | .jnz t0, _ => exact ⟨t0, rfl⟩
  rw [resolveOp] at hro
  match hs : scanB 1 ((V.take i).reverse) with
  | none => rw [hs] at hro; exact Except.noConfusion hro
  | some r =>
    rw [hs] at hro
    injection hro with hro
    injection hro with hro
    obtain ⟨hrlt, ⟨t, hvj⟩, hnet, hmin⟩ := scanB_sound (by omega) hs
    have ha : a = i - 1 - r := hro.symm
    subst ha
    refine ⟨by omega, resolve_jz_out hres hvj, ?_, ?_⟩
    · rw [netF_slice_eq hdel]
      exact hnet
    · intro j t2 hj1 hj2 hgetj
      obtain ⟨opVj, hgetVj, _, _, hjzj⟩ := resolve_get_inv hres hgetj
      have hzj : isJz opVj = true := by rw [← hjzj]; rfl
      obtain ⟨t3, rfl⟩ : ∃ t3, opVj = .jz t3 := by
        match opVj, hzj with
        | .jz t3, _ => exact ⟨t3, rfl⟩
      rw [netF_slice_eq hdel]
      exact hmin j t3 hj1 hj2 hgetVj

end Interp

open Interp in
/-- C5 counterexample: the source `",[]"` has balanced brackets and
contains a `[`, yet the compile phase faults (the `,` panic) before any
bracket is resolved — so it is not the case that on every balanced source
each `JmpIfZ` gets resolved. -/
theorem C5_counterexample :
    balCGo 0 ",[]".toList = true ∧ '[' ∈ ",[]".toList ∧
    compile ",[]" = .error .getcharTodo := by
  refine ⟨by decide, by decide, by rfl⟩

open Interp in
/-- C5 (amended): the compile phase faults on every CTL source whose
brackets are unbalanced; and on every balanced source on which the
character mapping returns normally (no `,`) with at least one op, compile
returns normally and resolves each `JmpIfZ` to the index of its matching
`JmpIfNZ` in the fused op stream — the first later `]` at which the
forward bracket-depth counter returns to zero — and symmetrically each
`JmpIfNZ` to its matching `JmpIfZ`. -/
theorem C5_bracket_resolution_amended :
    (∀ s : String, balCGo 0 s.toList = false → ∃ e, compile s = .error e) ∧
    (∀ (s : String) (u : List Op), parseOps s.toList = .ok u → u ≠ [] →
      balCGo 0 s.toList = true →
      ∃ ops, compile s = .ok ops ∧
        (∀ i a, ops.get? i = some (.jz a) →
          i < a ∧ (∃ t, ops.get? a = some (.jnz t)) ∧
          1 + netF ((ops.drop (i + 1)).take (a - i)) = 0 ∧
          ∀ j t2, i < j → j < a → ops.get? j = some (.jnz t2) →
            1 + netF ((ops.drop (i + 1)).take (j - i)) ≠ 0) ∧
        (∀ i a, ops.get? i = some (.jnz a) →
          a < i ∧ (∃ t, ops.get? a = some (.jz t)) ∧
          netF ((ops.drop a).take (i - a)) = 1 ∧
          ∀ j t2, a < j → j < i → ops.get? j = some (.jz t2) →
            netF ((ops.drop j).take (i - j)) ≠ 1)) := by
  constructor
  · intro s hbal
    match hc : compile s with
    | .error e => exact ⟨e, rfl⟩
    | .ok ops =>
      exfalso
      rw [compile_eq] at hc
      match hp : parseOps s.toList with
      | .error e => rw [hp] at hc; exact Except.noConfusion hc
      | .ok [] => rw [hp] at hc; exact Except.noConfusion hc
      | .ok (a :: rest) =>
        rw [hp] at hc
        have hV : fuseGo a [] rest = (chunks (a :: rest)).map combo := by
          rw [fuse_eq]
          simp
        have hc2 : resolve (fuseGo a [] rest) = .ok ops := hc
        rw [hV] at hc2
        have hbV := bal_of_resolve_ok hc2
        have h1 := parse_bal s.toList (a :: rest) hp 0
        have h2 := balGo_fuse (a :: rest) 0
        rw [h1, h2, hbV] at hbal
        exact Bool.noConfusion hbal
  · intro s u hp hne hbal
    match u, hne with
    | a :: rest, _ =>
      have hV : fuseGo a [] rest = (chunks (a :: rest)).map combo := by
        rw [fuse_eq]
        simp
      have hbu : balGo 0 (a :: rest) = true := by
        rw [← parse_bal s.toList (a :: rest) hp 0]
        exact hbal
      have hbV : balGo 0 ((chunks (a :: rest)).map combo) = true := by
        rw [← balGo_fuse]
        exact hbu
      obtain ⟨ops, hres⟩ := resolve_ok_of_bal hbV
      refine ⟨ops, ?_, resolved_jz_spec hres, resolved_jnz_spec hres⟩
      rw [compile_eq, hp]
      show resolve (fuseGo a [] rest) = .ok ops
      rw [hV]
      exact hres

open Interp in
/-- Witness for C5 (amended) at concrete inputs: the unbalanced `"]"`
faults, and the balanced `"[-]"` compiles with the `[` at index 0 resolved
to the `]` at index 2 and vice versa. -/
theorem C5_bracket_resolution_amended_witness :
    (∃ e, compile "]" = .error e) ∧
    (∃ ops, compile "[-]" = .ok ops ∧
      (∀ i a, ops.get? i = some (.jz a) →
        i < a ∧ (∃ t, ops.get? a = some (.jnz t)) ∧
        1 + netF ((ops.drop (i + 1)).take (a - i)) = 0 ∧
        ∀ j t2, i < j → j < a → ops.get? j = some (.jnz t2) →
          1 + netF ((ops.drop (i + 1)).take (j - i)) ≠ 0) ∧
      (∀ i a, ops.get? i = some (.jnz a) →
        a < i ∧ (∃ t, ops.get? a = some (.jz t)) ∧
        netF ((ops.drop a).take (i - a)) = 1 ∧
        ∀ j t2, a < j → j < i → ops.get? j = some (.jz t2) →
          netF ((ops.drop j).take (i - j)) ≠ 1)) := by
  constructor
  · exact C5_bracket_resolution_amended.1 "]" (by decide)
  · exact C5_bracket_resolution_amended.2 "[-]" [.jz 0, .add (-1), .jnz 0]
      (by rfl) (by decide) (by decide)

namespace Interp

/-- Start index in the flattened op stream of chunk `k`: the total length
of the chunks before it. -/
def phi (C : List (List Op)) (k : Nat) : Nat := ((C.take k).map List.length).sum

theorem phi_zero (C : List (List Op)) : phi C 0 = 0 := rfl

theorem phi_succ {C : List (List Op)} {k : Nat} {c : List Op}
    (h : C.get? k = some c) : phi C (k + 1) = phi C k + c.length := by
  have h2 : C[k]? = some c := by rwa [← List.get?_eq_getElem?]
  rw [phi, phi, List.take_succ, h2]
  simp

theorem phi_add {C : List (List Op)} {k m : Nat} (h : k ≤ m) :
    phi C m = phi C k + phi (C.drop k) (m - k) := by
  rw [phi, phi, phi]
  conv_lhs => rw [show m = k + (m - k) from by omega]
  rw [List.take_add, List.map_append, List.sum_append]

theorem phi_mono {C : List (List Op)} {k m : Nat} (h : k ≤ m) :
    phi C k ≤ phi C m := by
  rw [phi_add h]
  omega

theorem flatten_drop_phi : ∀ (C : List (List Op)) (k : Nat),
    (C.flatten).drop (phi C k) = (C.drop k).flatten := by
  intro C
  induction C with
  | nil => intro k; simp [phi]
  | cons c C ih =>
    intro k
    match k with
    | 0 => rfl
    | k + 1 =>
      have hphi : phi (c :: C) (k + 1) = c.length + phi C k := by
        rw [phi, List.take_succ_cons]
        simp [phi]
      rw [hphi, List.flatten_cons, List.drop_succ_cons,
        ← List.drop_drop, List.drop_left]
      exact ih k

theorem flatten_take_phi : ∀ (C : List (List Op)) (k : Nat),
    (C.flatten).take (phi C k) = (C.take k).flatten := by
  intro C
  induction C with
  | nil => intro k; simp [phi]
  | cons c C ih =>
    intro k
    match k with
    | 0 => rfl
    | k + 1 =>
      have hphi : phi (c :: C) (k + 1) = c.length + phi C k := by
        rw [phi, List.take_succ_cons]
        simp [phi]
      rw [hphi, List.flatten_cons, List.take_succ_cons, List.flatten_cons,
        List.take_add, List.take_left, List.drop_left]
      rw [ih k]

theorem flatten_slice {C : List (List Op)} {i m : Nat} (h : i ≤ m) :
    ((C.flatten).drop (phi C i)).take (phi C m - phi C i) =
      ((C.drop i).take (m - i)).flatten := by
  rw [flatten_drop_phi, phi_add h, Nat.add_sub_cancel_left]
  exact flatten_take_phi (C.drop i) (m - i)

theorem phi_top : ∀ C : List (List Op), phi C C.length = (C.flatten).length := by
  intro C
  induction C with
  | nil => rfl
  | cons c C ih =>
    have hphi : phi (c :: C) (C.length + 1) = c.length + phi C C.length := by
      rw [phi, List.take_succ_cons]
      simp [phi]
    rw [List.length_cons, hphi, ih, List.flatten_cons, List.length_append]

theorem flatten_get {C : List (List Op)} {k : Nat} {c : List Op}
    (hk : C.get? k = some c) {q : Nat} (hq : q < c.length) :
    (C.flatten).get? (phi C k + q) = c.get? q := by
  have hlt : k < C.length := (List.get?_eq_some.1 hk).fst
  have hk2 : C[k]? = some c := by rwa [← List.get?_eq_getElem?]
  have hcc : C[k] = c := by
    have h9 := List.getElem?_eq_getElem hlt
    rw [hk2] at h9
    injection h9 with h9
    exact h9.symm
  have hdrop : C.drop k = c :: C.drop (k + 1) := by
    rw [List.drop_eq_getElem_cons hlt, hcc]
  rw [← List.get?_drop, flatten_drop_phi, hdrop, List.flatten_cons,
    List.get?_append hq]

theorem flatten_decomp : ∀ (C : List (List Op)) (j : Nat),
    j < (C.flatten).length →
    ∃ k q c, C.get? k = some c ∧ q < c.length ∧ j = phi C k + q := by
  intro C
  induction C with
  | nil => intro j hj; simp at hj
  | cons c C ih =>
    intro j hj
    by_cases hc : j < c.length
    · exact ⟨0, j, c, rfl, hc, by simp [phi]⟩
    · rw [List.flatten_cons, List.length_append] at hj
      obtain ⟨k, q, c2, h1, h2, h3⟩ := ih (j - c.length) (by omega)
      have hphi : phi (c :: C) (k + 1) = c.length + phi C k := by
        rw [phi, List.take_succ_cons]
        simp [phi]
      exact ⟨k + 1, q, c2, by simpa using h1, h2, by omega⟩

theorem phi_lt_of_lt {C : List (List Op)} (hgood : ∀ c ∈ C, c ≠ [])
    {k m : Nat} (hk : k < m) (hm : m ≤ C.length) : phi C k < phi C m := by
  rw [phi_add (Nat.le_of_lt hk)]
  have hlen : ((C.drop k).take (m - k)).length = m - k := by
    rw [List.length_take, List.length_drop]
    omega
  have hpos : 0 < ((C.drop k).take (m - k)).length := by omega
  obtain ⟨c, hcmem⟩ := List.exists_mem_of_length_pos hpos
  have hcC : c ∈ C := List.mem_of_mem_drop (List.mem_of_mem_take hcmem)
  have hcne : 0 < c.length := List.length_pos.mpr (hgood c hcC)
  have hsum : c.length ≤ (((C.drop k).take (m - k)).map List.length).sum :=
    List.single_le_sum (fun x _ => Nat.zero_le x) _
      (List.mem_map_of_mem List.length hcmem)
  have hsum2 : c.length ≤ phi (C.drop k) (m - k) := hsum
  omega

theorem phi_lt_inv {C : List (List Op)} {k m : Nat}
    (h : phi C k < phi C m) : k < m := by
  by_contra hkm
  have := phi_mono (C := C) (show m ≤ k from by omega)
  omega

end Interp

namespace Interp

theorem combo_add_of_all {c : List Op} (hne : c ≠ [])
    (h : ∀ x ∈ c, isAdd x = true) :
    combo c = .add ((c.map addVal).sum) := by
  match c, hne with
  | a :: r, _ =>
    have := h a (by simp)
    cases a <;> simp_all [isAdd, combo]

theorem combo_mov_of_all {c : List Op} (hne : c ≠ [])
    (h : ∀ x ∈ c, isMov x = true) :
    combo c = .mov ((c.map movVal).sum) := by
  match c, hne with
  | a :: r, _ =>
    have := h a (by simp)
    cases a <;> simp_all [isMov, combo]

theorem deltaF_combo {c : List Op} (h : goodChunk c) :
    deltaF (combo c) = netF c := by
  obtain ⟨hne, hcase⟩ := h
  rcases hcase with hall | hall | ⟨op, rfl, h1, h2⟩
  · obtain ⟨hz, hnz⟩ := combo_addChunk hne hall
    rw [deltaF_of_other hz hnz]
    have hzero : ∀ x ∈ c.map deltaF, x = 0 := by
      intro x hx
      obtain ⟨op, hop, rfl⟩ := List.mem_map.1 hx
      have := hall op hop
      cases op <;> simp_all [isAdd, deltaF]
    rw [netF, List.sum_eq_zero hzero]
  · obtain ⟨hz, hnz⟩ := combo_movChunk hne hall
    rw [deltaF_of_other hz hnz]
    have hzero : ∀ x ∈ c.map deltaF, x = 0 := by
      intro x hx
      obtain ⟨op, hop, rfl⟩ := List.mem_map.1 hx
      have := hall op hop
      cases op <;> simp_all [isMov, deltaF]
    rw [netF, List.sum_eq_zero hzero]
  · rw [combo_single, netF, List.map_singleton, List.sum_singleton]

theorem netF_flatten_chunks : ∀ (D : List (List Op)),
    (∀ c ∈ D, goodChunk c) → netF D.flatten = netF (D.map combo) := by
  intro D
  induction D with
  | nil => intro _; rfl
  | cons c D ih =>
    intro hgood
    rw [List.flatten_cons, List.map_cons, netF_append, netF_cons,
      ih (fun x hx => hgood x (by simp [hx])),
      deltaF_combo (hgood c (by simp))]

theorem netF_slice_chunks {C : List (List Op)} (hgood : ∀ c ∈ C, goodChunk c)
    {i m : Nat} (h : i ≤ m) :
    netF (((C.flatten).drop (phi C i)).take (phi C m - phi C i)) =
      netF (((C.map combo).drop i).take (m - i)) := by
  rw [flatten_slice h,
    netF_flatten_chunks _
      (fun c hc => hgood c (List.mem_of_mem_drop (List.mem_of_mem_take hc))),
    List.map_take, List.map_drop]

theorem netF_NF {U N F : List Op} {C : List (List Op)}
    (hgood : ∀ c ∈ C, goodChunk c) (hUC : C.flatten = U)
    (hresN : resolve U = .ok N) (hresF : resolve (C.map combo) = .ok F)
    {i m : Nat} (h : i ≤ m) :
    netF ((N.drop (phi C i)).take (phi C m - phi C i)) =
      netF ((F.drop i).take (m - i)) := by
  rw [netF_slice_eq (resolveFrom_deltaMap hresN), ← hUC,
    netF_slice_chunks hgood h, ← netF_slice_eq (resolveFrom_deltaMap hresF)]

theorem resolve_id_at {V ops : List Op} (hres : resolve V = .ok ops)
    {p : Nat} {op : Op} (hget : V.get? p = some op)
    (h1 : isJz op = false) (h2 : isJnz op = false) :
    ops.get? p = some op := by
  obtain ⟨op2, hro, hr2⟩ := resolveFrom_get hres p op hget
  rw [show (0 : Nat) + p = p from by omega, resolveOp_other h1 h2] at hro
  injection hro with hro
  subst hro
  exact hr2

end Interp

namespace Interp

/-- A bracket op in the fused stream comes from a singleton chunk, sitting
at a chunk boundary of the flattened stream. -/
theorem boundary_get {C : List (List Op)} (hgood : ∀ c ∈ C, goodChunk c)
    {k : Nat} {op : Op} (h : (C.map combo).get? k = some op)
    (hbr : isJz op = true ∨ isJnz op = true) :
    C.get? k = some [op] ∧ (C.flatten).get? (phi C k) = some op ∧
      phi C (k + 1) = phi C k + 1 := by
  rw [List.get?_map] at h
  match hk : C.get? k with
  | none => rw [hk] at h; exact Option.noConfusion h
  | some c =>
    rw [hk] at h
    injection h with h
    obtain ⟨hne, hcase⟩ := hgood c (List.get?_mem hk)
    rcases hcase with hall | hall | ⟨op0, hc0, _, _⟩
    · exfalso
      obtain ⟨hz, hnz⟩ := combo_addChunk hne hall
      rw [h] at hz hnz
      rcases hbr with hb | hb
      · rw [hb] at hz; exact Bool.noConfusion hz
      · rw [hb] at hnz; exact Bool.noConfusion hnz
    · exfalso
      obtain ⟨hz, hnz⟩ := combo_movChunk hne hall
      rw [h] at hz hnz
      rcases hbr with hb | hb
      · rw [hb] at hz; exact Bool.noConfusion hz
      · rw [hb] at hnz; exact Bool.noConfusion hnz
    · subst hc0
      rw [combo_single] at h
      subst h
      refine ⟨rfl, ?_, ?_⟩
      · have hg := flatten_get hk (q := 0) (by simp)
        simpa using hg
      · rw [phi_succ hk]
        simp

/-- A bracket op in the unfused stream sits at a chunk boundary, in a
singleton chunk whose fused image is the same op. -/
theorem bracket_at {U : List Op} {C : List (List Op)}
    (hgood : ∀ c ∈ C, goodChunk c) (hUC : C.flatten = U)
    {j : Nat} {op : Op} (hj : U.get? j = some op)
    (hbr : isJz op = true ∨ isJnz op = true) :
    ∃ k, j = phi C k ∧ C.get? k = some [op] ∧
      (C.map combo).get? k = some op ∧ phi C (k + 1) = phi C k + 1 := by
  have hjlen : j < U.length := (List.get?_eq_some.1 hj).fst
  rw [← hUC] at hjlen hj
  obtain ⟨k, q, c, hk, hq, hjeq⟩ := flatten_decomp C j hjlen
  have hget := flatten_get hk hq
  rw [← hjeq, hj] at hget
  obtain ⟨hne, hcase⟩ := hgood c (List.get?_mem hk)
  have hmem : op ∈ c := List.get?_mem hget.symm
  rcases hcase with hall | hall | ⟨op0, hc0, _, _⟩
  · exfalso
    have := hall op hmem
    rcases hbr with hb | hb <;> cases op <;> simp_all [isAdd, isJz, isJnz]
  · exfalso
    have := hall op hmem
    rcases hbr with hb | hb <;> cases op <;> simp_all [isMov, isJz, isJnz]
  · subst hc0
    have hq0 : q = 0 := by
      simp only [List.length_singleton] at hq
      omega
    subst hq0
    have hop0 : op = op0 := by
      have hg2 : some op = some op0 := by simpa using hget
      injection hg2
    subst hop0
    refine ⟨k, by omega, hk, ?_, ?_⟩
    · rw [List.get?_map, hk]
      simp [combo_single]
    · rw [phi_succ hk]
      simp

end Interp

namespace Interp

/-- Forward targets correspond under fusion: a `[` at chunk boundary
`phi C i` in the unfused resolved stream and at index `i` in the fused
resolved stream store targets related by `phi`. -/
theorem target_fwd {U N F : List Op} {C : List (List Op)}
    (hgood : ∀ c ∈ C, goodChunk c) (hUC : C.flatten = U)
    (hresN : resolve U = .ok N) (hresF : resolve (C.map combo) = .ok F)
    {i aF aN : Nat} (hgF : F.get? i = some (.jz aF))
    (hgN : N.get? (phi C i) = some (.jz aN)) : aN = phi C aF := by
  have hgood2 : ∀ c ∈ C, c ≠ [] := fun c hc => (hgood c hc).1
  have hlenF : F.length = C.length := by
    rw [resolveFrom_length hresF, List.length_map]
  obtain ⟨hiaF, ⟨tF, hFa⟩, hFnet, hFmin⟩ := resolved_jz_spec hresF i aF hgF
  obtain ⟨hiaN, ⟨tN, hNa⟩, hNnet, hNmin⟩ :=
    resolved_jz_spec hresN (phi C i) aN hgN
  obtain ⟨opVi, hVi, _, _, hjzi⟩ := resolve_get_inv hresF hgF
  obtain ⟨_, _, hphiI⟩ :=
    boundary_get hgood hVi (Or.inl (by rw [← hjzi]; rfl))
  obtain ⟨opVa, hVa, _, hjnza, _⟩ := resolve_get_inv hresF hFa
  obtain ⟨_, hUa, hphiA⟩ :=
    boundary_get hgood hVa (Or.inr (by rw [← hjnza]; rfl))
  have hza : isJnz opVa = true := by rw [← hjnza]; rfl
  obtain ⟨ta, rfl⟩ : ∃ ta, opVa = .jnz ta := by
    match opVa, hza with
    | .jnz ta, _ => exact ⟨ta, rfl⟩
  rw [hUC] at hUa
  obtain ⟨t2, hNpa⟩ := resolve_jnz_out hresN hUa
  have haFC : aF < C.length := by
    have := (List.get?_eq_some.1 hFa).fst
    omega
  have htrans := netF_NF hgood hUC hresN hresF
    (show i + 1 ≤ aF + 1 from by omega)
  rw [hphiI, hphiA] at htrans
  have hphiLe : phi C i ≤ phi C aF := phi_mono (by omega)
  rw [show phi C aF + 1 - (phi C i + 1) = phi C aF - phi C i from by omega,
    show aF + 1 - (i + 1) = aF - i from by omega] at htrans
  have hnet0 : 1 + netF ((N.drop (phi C i + 1)).take (phi C aF - phi C i)) = 0 := by
    rw [htrans]
    exact hFnet
  rcases Nat.lt_trichotomy aN (phi C aF) with hlt | heq | hgt
  · exfalso
    obtain ⟨opUn, hUn, _, hjnzN, _⟩ := resolve_get_inv hresN hNa
    have hzn : isJnz opUn = true := by rw [← hjnzN]; rfl
    obtain ⟨k, hkeq, _, hVk, hphiK⟩ := bracket_at hgood hUC hUn (Or.inr hzn)
    obtain ⟨tn, rfl⟩ : ∃ tn, opUn = .jnz tn := by
      match opUn, hzn with
      | .jnz tn, _ => exact ⟨tn, rfl⟩
    obtain ⟨t3, hFk⟩ := resolve_jnz_out hresF hVk
    have hik : i < k := phi_lt_inv (C := C) (by rw [← hkeq]; exact hiaN)
    have hka : k < aF := phi_lt_inv (C := C) (by rw [← hkeq]; exact hlt)
    have htr2 := netF_NF hgood hUC hresN hresF
      (show i + 1 ≤ k + 1 from by omega)
    rw [hphiI, hphiK] at htr2
    have hphiLe2 : phi C i ≤ phi C k := phi_mono (by omega)
    rw [show phi C k + 1 - (phi C i + 1) = phi C k - phi C i from by omega,
      show k + 1 - (i + 1) = k - i from by omega] at htr2
    apply hFmin k t3 hik hka hFk
    rw [← htr2, show phi C k - phi C i = aN - phi C i from by omega]
    exact hNnet
  · exact heq
  · exfalso
    have hpi : phi C i < phi C aF := phi_lt_of_lt hgood2 (by omega) (by omega)
    exact hNmin (phi C aF) t2 hpi hgt hNpa hnet0

/-- Backward targets correspond under fusion: a `]` at chunk boundary
`phi C i` in the unfused resolved stream and at index `i` in the fused
resolved stream store targets related by `phi`. -/
theorem target_bwd {U N F : List Op} {C : List (List Op)}
    (hgood : ∀ c ∈ C, goodChunk c) (hUC : C.flatten = U)
    (hresN : resolve U = .ok N) (hresF : resolve (C.map combo) = .ok F)
    {i aF aN : Nat} (hgF : F.get? i = some (.jnz aF))
    (hgN : N.get? (phi C i) = some (.jnz aN)) : aN = phi C aF := by
  have hgood2 : ∀ c ∈ C, c ≠ [] := fun c hc => (hgood c hc).1
  have hlenF : F.length = C.length := by
    rw [resolveFrom_length hresF, List.length_map]
  obtain ⟨haFi, ⟨tF, hFa⟩, hFnet, hFmin⟩ := resolved_jnz_spec hresF i aF hgF
  obtain ⟨haNi, ⟨tN, hNa⟩, hNnet, hNmin⟩ :=
    resolved_jnz_spec hresN (phi C i) aN hgN
  have hiC : i < C.length := by
    have := (List.get?_eq_some.1 hgF).fst
    omega
  obtain ⟨opVa, hVa, _, _, hjza⟩ := resolve_get_inv hresF hFa
  obtain ⟨_, hUa, _⟩ :=
    boundary_get hgood hVa (Or.inl (by rw [← hjza]; rfl))
  have hza : isJz opVa = true := by rw [← hjza]; rfl
  obtain ⟨ta, rfl⟩ : ∃ ta, opVa = .jz ta := by
    match opVa, hza with
    | .jz ta, _ => exact ⟨ta, rfl⟩
  rw [hUC] at hUa
  obtain ⟨t2, hNpa⟩ := resolve_jz_out hresN hUa
  have htrans := netF_NF hgood hUC hresN hresF (show aF ≤ i from by omega)
  have hnet1 : netF ((N.drop (phi C aF)).take (phi C i - phi C aF)) = 1 := by
    rw [htrans]
    exact hFnet
  rcases Nat.lt_trichotomy aN (phi C aF) with hlt | heq | hgt
  · exfalso
    have hpa : phi C aF < phi C i := phi_lt_of_lt hgood2 (by omega) (by omega)
    exact hNmin (phi C aF) t2 hlt hpa hNpa hnet1
  · exact heq
  · exfalso
    obtain ⟨opUn, hUn, _, _, hjzN⟩ := resolve_get_inv hresN hNa
    have hzn : isJz opUn = true := by rw [← hjzN]; rfl
    obtain ⟨k, hkeq, _, hVk, _⟩ := bracket_at hgood hUC hUn (Or.inl hzn)
    obtain ⟨tn, rfl⟩ : ∃ tn, opUn = .jz tn := by
      match opUn, hzn with
      | .jz tn, _ => exact ⟨tn, rfl⟩
    obtain ⟨t3, hFk⟩ := resolve_jz_out hresF hVk
    have hak : aF < k := phi_lt_inv (C := C) (by rw [← hkeq]; exact hgt)
    have hki : k < i := phi_lt_inv (C := C) (by rw [← hkeq]; exact haNi)
    have htr2 := netF_NF hgood hUC hresN hresF (show k ≤ i from by omega)
    apply hFmin k t3 hak hki hFk
    rw [← htr2, ← hkeq]
    exact hNnet
  
end Interp

namespace Interp

theorem step_none {ops : List Op} {s : St} (h : ops.get? s.pc = none) :
    step ops s = .halt := by
  rw [step, h]

theorem step_put {ops : List Op} {s : St} (h : ops.get? s.pc = some .put) :
    step ops s = .next { s with out := s.out ++ [s.tape.getD s.mp 0],
                                pc := s.pc + 1, steps := s.steps + 1 } := by
  rw [step, h]

theorem step_add {ops : List Op} {s : St} {n : Int}
    (h : ops.get? s.pc = some (.add n)) :
    step ops s =
      (if ((s.tape.getD s.mp 0 : Int) + n) > 255 then .fault .intOverflow
       else if ((s.tape.getD s.mp 0 : Int) + n) < 0 then .fault .intUnderflow
       else .next
         { s with tape := s.tape.set s.mp ((s.tape.getD s.mp 0 : Int) + n).toNat,
                  pc := s.pc + 1, steps := s.steps + 1 }) := by
  rw [step, h]

theorem step_mov {ops : List Op} {s : St} {n : Int}
    (h : ops.get? s.pc = some (.mov n)) :
    step ops s =
      (if ((s.mp : Int) + n) ≥ (MEMSZ : Int) then .fault .memOverflow
       else if ((s.mp : Int) + n) < 0 then .fault .memUnderflow
       else .next { s with mp := ((s.mp : Int) + n).toNat,
                           pc := s.pc + 1, steps := s.steps + 1 }) := by
  rw [step, h]

theorem step_jz {ops : List Op} {s : St} {a : Nat}
    (h : ops.get? s.pc = some (.jz a)) :
    step ops s =
      .next { s with pc := (if s.tape.getD s.mp 0 = 0 then a else s.pc) + 1,
                     steps := s.steps + 1 } := by
  rw [step, h]

theorem step_jnz {ops : List Op} {s : St} {a : Nat}
    (h : ops.get? s.pc = some (.jnz a)) :
    step ops s =
      .next { s with pc := (if s.tape.getD s.mp 0 ≠ 0 then a else s.pc) + 1,
                     steps := s.steps + 1 } := by
  rw [step, h]

theorem run_zero (ops : List Op) (s : St) : run ops 0 s = .timeout s := rfl

theorem run_succ_halt {ops : List Op} {fuel : Nat} {s : St}
    (h : step ops s = .halt) : run ops (fuel + 1) s = .finished s := by
  rw [run, h]

theorem run_succ_fault {ops : List Op} {fuel : Nat} {s : St} {e : InterpErr}
    (h : step ops s = .fault e) : run ops (fuel + 1) s = .fault e := by
  rw [run, h]

theorem run_succ_next {ops : List Op} {fuel : Nat} {s s2 : St}
    (h : step ops s = .next s2) : run ops (fuel + 1) s = run ops fuel s2 := by
  rw [run, h]

theorem set_getD_self : ∀ (l : List Nat) (m : Nat), m < l.length →
    l.set m (l.getD m 0) = l := by
  intro l
  induction l with
  | nil => intro m h; simp at h
  | cons a l ih =>
    intro m h
    match m with
    | 0 => rfl
    | m + 1 =>
      show a :: l.set m (l.getD m 0) = a :: l
      rw [ih m (by simpa using h)]

end Interp

namespace Interp

/-- Executing a run of `Add` ops one by one: the naive interpreter applies
the summed increment to the current cell, never leaving `0..255` en route
exactly when it does not fault; a non-faulting run therefore constrains the
summed value like the single fused `Add` does. -/
theorem addRun {N : List Op} : ∀ (c : List Op) (p fuel mp : Nat)
    (tape out : List Nat) (steps : Nat) (t : St),
    (∀ x ∈ c, isAdd x = true) →
    (∀ q op, c.get? q = some op → N.get? (p + q) = some op) →
    mp < tape.length →
    run N fuel ⟨p, mp, tape, out, steps⟩ = .finished t →
    ∃ fuel2 v, fuel2 + c.length = fuel ∧ 0 ≤ v ∧ (c ≠ [] → v ≤ 255) ∧
      v = (tape.getD mp 0 : Int) + (c.map addVal).sum ∧
      run N fuel2 ⟨p + c.length, mp, tape.set mp v.toNat, out,
        steps + c.length⟩ = .finished t := by
  intro c
  induction c with
  | nil =>
    intro p fuel mp tape out steps t hall hagree hmp hrun
    refine ⟨fuel, (tape.getD mp 0 : Int), by simp, Int.natCast_nonneg _,
      fun h => absurd rfl h, by simp, ?_⟩
    rw [show ((tape.getD mp 0 : Int)).toNat = tape.getD mp 0 from by simp,
      set_getD_self tape mp hmp]
    simpa using hrun
  | cons a c ih =>
    intro p fuel mp tape out steps t hall hagree hmp hrun
    have ha := hall a (by simp)
    obtain ⟨n, rfl⟩ : ∃ n, a = Op.add n := by
      match a, ha with
      | .add n, _ => exact ⟨n, rfl⟩
    have hg : N.get? p = some (.add n) := by
      have h2 := hagree 0 (.add n) rfl
      simpa using h2
    match fuel with
    | 0 =>
      rw [run_zero] at hrun
      exact Outcome.noConfusion hrun
    | fuel + 1 =>
      have hg2 : N.get? (St.mk p mp tape out steps).pc = some (.add n) := hg
      have hsa : step N ⟨p, mp, tape, out, steps⟩ =
          (if ((tape.getD mp 0 : Int) + n) > 255 then StepRes.fault .intOverflow
           else if ((tape.getD mp 0 : Int) + n) < 0 then
             StepRes.fault .intUnderflow
           else StepRes.next ⟨p + 1, mp,
             tape.set mp ((tape.getD mp 0 : Int) + n).toNat, out, steps + 1⟩) :=
        step_add hg2
      by_cases hov : ((tape.getD mp 0 : Int) + n) > 255
      · have hstep : step N ⟨p, mp, tape, out, steps⟩ = .fault .intOverflow := by
          rw [hsa, if_pos hov]
        rw [run_succ_fault hstep] at hrun
        exact Outcome.noConfusion hrun
      · by_cases hun : ((tape.getD mp 0 : Int) + n) < 0
        · have hstep : step N ⟨p, mp, tape, out, steps⟩ = .fault .intUnderflow := by
            rw [hsa, if_neg hov, if_pos hun]
          rw [run_succ_fault hstep] at hrun
          exact Outcome.noConfusion hrun
        · have hstep : step N ⟨p, mp, tape, out, steps⟩ = .next ⟨p + 1, mp,
              tape.set mp ((tape.getD mp 0 : Int) + n).toNat, out, steps + 1⟩ := by
            rw [hsa, if_neg hov, if_neg hun]
          rw [run_succ_next hstep] at hrun
          obtain ⟨fuel2, v, hfc, hv0, hvle, hveq, hrun2⟩ :=
            ih (p + 1) fuel mp (tape.set mp ((tape.getD mp 0 : Int) + n).toNat)
              out (steps + 1) t
              (fun x hx => hall x (by simp [hx]))
              (fun q op hq => by
                have h2 := hagree (q + 1) op (by simpa using hq)
                rwa [show p + (q + 1) = p + 1 + q from by omega] at h2)
              (by simpa using hmp)
              hrun
          have hnn : (0 : Int) ≤ (tape.getD mp 0 : Int) + n := by omega
          have hgd : (tape.set mp ((tape.getD mp 0 : Int) + n).toNat).getD mp 0
              = ((tape.getD mp 0 : Int) + n).toNat := getD_set_self _ hmp
          have hvv : v = (tape.getD mp 0 : Int) + (n + (c.map addVal).sum) := by
            rw [hveq, hgd, Int.toNat_of_nonneg hnn]
            omega
          refine ⟨fuel2, v, by simp only [List.length_cons]; omega, hv0,
            ?_, ?_, ?_⟩
          · intro _
            by_cases hc : c = []
            · subst hc
              have hv2 : v = (tape.getD mp 0 : Int) + n := by
                rw [hvv]
                simp
              omega
            · exact hvle hc
          · rw [List.map_cons, List.sum_cons, hvv]
            rfl
          · have hse : (⟨p + 1 + c.length, mp,
                (tape.set mp ((tape.getD mp 0 : Int) + n).toNat).set mp v.toNat,
                out, steps + 1 + c.length⟩ : St)
                = ⟨p + (c.length + 1), mp, tape.set mp v.toNat, out,
                  steps + (c.length + 1)⟩ := by
              rw [List.set_set, show p + 1 + c.length = p + (c.length + 1) from
                by omega, show steps + 1 + c.length = steps + (c.length + 1) from
                by omega]
            rw [hse] at hrun2
            simpa using hrun2

/-- Executing a run of `Mov` ops one by one: the head lands on the summed
displacement, staying inside the tape at each stop exactly when the run
does not fault. -/
theorem movRun {N : List Op} : ∀ (c : List Op) (p fuel mp : Nat)
    (tape out : List Nat) (steps : Nat) (t : St),
    (∀ x ∈ c, isMov x = true) →
    (∀ q op, c.get? q = some op → N.get? (p + q) = some op) →
    run N fuel ⟨p, mp, tape, out, steps⟩ = .finished t →
    ∃ fuel2 d, fuel2 + c.length = fuel ∧ 0 ≤ d ∧
      (c ≠ [] → d < (MEMSZ : Int)) ∧
      d = (mp : Int) + (c.map movVal).sum ∧
      run N fuel2 ⟨p + c.length, d.toNat, tape, out,
        steps + c.length⟩ = .finished t := by
  intro c
  induction c with
  | nil =>
    intro p fuel mp tape out steps t hall hagree hrun
    refine ⟨fuel, (mp : Int), by simp, Int.natCast_nonneg _,
      fun h => absurd rfl h, by simp, ?_⟩
    rw [show ((mp : Int)).toNat = mp from by simp]
    simpa using hrun
  | cons a c ih =>
    intro p fuel mp tape out steps t hall hagree hrun
    have ha := hall a (by simp)
    obtain ⟨n, rfl⟩ : ∃ n, a = Op.mov n := by
      match a, ha with
      | .mov n, _ => exact ⟨n, rfl⟩
    have hg : N.get? p = some (.mov n) := by
      have h2 := hagree 0 (.mov n) rfl
      simpa using h2
    match fuel with
    | 0 =>
      rw [run_zero] at hrun
      exact Outcome.noConfusion hrun
    | fuel + 1 =>
      have hg2 : N.get? (St.mk p mp tape out steps).pc = some (.mov n) := hg
      have hsa : step N ⟨p, mp, tape, out, steps⟩ =
          (if ((mp : Int) + n) ≥ (MEMSZ : Int) then StepRes.fault .memOverflow
           else if ((mp : Int) + n) < 0 then StepRes.fault .memUnderflow
           else StepRes.next ⟨p + 1, ((mp : Int) + n).toNat, tape, out,
             steps + 1⟩) :=
        step_mov hg2
      by_cases hov : ((mp : Int) + n) ≥ (MEMSZ : Int)
      · have hstep : step N ⟨p, mp, tape, out, steps⟩ = .fault .memOverflow := by
          rw [hsa, if_pos hov]
        rw [run_succ_fault hstep] at hrun
        exact Outcome.noConfusion hrun
      · by_cases hun : ((mp : Int) + n) < 0
        · have hstep : step N ⟨p, mp, tape, out, steps⟩ = .fault .memUnderflow := by
            rw [hsa, if_neg hov, if_pos hun]
          rw [run_succ_fault hstep] at hrun
          exact Outcome.noConfusion hrun
        · have hstep : step N ⟨p, mp, tape, out, steps⟩ = .next ⟨p + 1,
              ((mp : Int) + n).toNat, tape, out, steps + 1⟩ := by
            rw [hsa, if_neg hov, if_neg hun]
          rw [run_succ_next hstep] at hrun
          obtain ⟨fuel2, d, hfc, hd0, hdle, hdeq, hrun2⟩ :=
            ih (p + 1) fuel ((mp : Int) + n).toNat tape out (steps + 1) t
              (fun x hx => hall x (by simp [hx]))
              (fun q op hq => by
                have h2 := hagree (q + 1) op (by simpa using hq)
                rwa [show p + (q + 1) = p + 1 + q from by omega] at h2)
              hrun
          have hnn : (0 : Int) ≤ (mp : Int) + n := by omega
          have hdd : d = (mp : Int) + (n + (c.map movVal).sum) := by
            rw [hdeq, Int.toNat_of_nonneg hnn]
            omega
          refine ⟨fuel2, d, by simp only [List.length_cons]; omega, hd0,
            ?_, ?_, ?_⟩
          · intro _
            by_cases hc : c = []
            · subst hc
              have hd2 : d = (mp : Int) + n := by
                rw [hdd]
                simp
              omega
            · exact hdle hc
          · rw [List.map_cons, List.sum_cons, hdd]
            rfl
          · have hse : (⟨p + 1 + c.length, d.toNat, tape, out,
                steps + 1 + c.length⟩ : St)
                = ⟨p + (c.length + 1), d.toNat, tape, out,
                  steps + (c.length + 1)⟩ := by
              rw [show p + 1 + c.length = p + (c.length + 1) from by omega,
                show steps + 1 + c.length = steps + (c.length + 1) from by omega]
            rw [hse] at hrun2
            simpa using hrun2

end Interp

namespace Interp

set_option maxHeartbeats 1600000 in
/-- Fuel-indexed simulation: a finishing run of the unfused resolved
stream is matched, chunk by chunk, by a finishing run of the fused
resolved stream with the same output, tape and head, using no more
fuel. -/
theorem sim_run {U N F : List Op} {C : List (List Op)}
    (hgood : ∀ c ∈ C, goodChunk c) (hUC : C.flatten = U)
    (hresN : resolve U = .ok N) (hresF : resolve (C.map combo) = .ok F) :
    ∀ (fuel : Nat) (sN sF t : St),
      sN.mp = sF.mp → sN.tape = sF.tape → sN.out = sF.out →
      sF.pc ≤ C.length → sN.pc = phi C sF.pc →
      sN.tape.length = MEMSZ → sN.mp < MEMSZ →
      run N fuel sN = .finished t →
      ∃ fuelF t2, fuelF ≤ fuel ∧ run F fuelF sF = .finished t2 ∧
        t2.out = t.out ∧ t2.tape = t.tape ∧ t2.mp = t.mp := by
  have hlenF : F.length = C.length := by
    rw [resolveFrom_length hresF, List.length_map]
  have hlenN : N.length = U.length := resolveFrom_length hresN
  have hUlen : U.length = phi C C.length := by
    rw [phi_top, hUC]
  suffices h : ∀ (B fuel : Nat), fuel ≤ B → ∀ (sN sF t : St),
      sN.mp = sF.mp → sN.tape = sF.tape → sN.out = sF.out →
      sF.pc ≤ C.length → sN.pc = phi C sF.pc →
      sN.tape.length = MEMSZ → sN.mp < MEMSZ →
      run N fuel sN = .finished t →
      ∃ fuelF t2, fuelF ≤ fuel ∧ run F fuelF sF = .finished t2 ∧
        t2.out = t.out ∧ t2.tape = t.tape ∧ t2.mp = t.mp by
    intro fuel
    exact h fuel fuel le_rfl
  intro B
  induction B with
  | zero =>
    intro fuel hle sN sF t _ _ _ _ _ _ _ hrun
    have hf0 : fuel = 0 := by omega
    subst hf0
    rw [run_zero] at hrun
    exact Outcome.noConfusion hrun
  | succ B ih =>
    intro fuel hle sN sF t hmp htape hout hpcle hpc hlen hmplt hrun
    rcases Nat.lt_or_ge sF.pc C.length with hlt | hge
    · -- a chunk starts at the fused pc
      obtain ⟨c, hCg⟩ : ∃ c, C.get? sF.pc = some c :=
        ⟨_, List.get?_eq_get hlt⟩
      obtain ⟨hne, hcase⟩ := hgood c (List.get?_mem hCg)
      rcases hcase with hall | hall | ⟨op, hcop, hop1, hop2⟩
      · -- an Add chunk
        have hVc : (C.map combo).get? sF.pc = some (combo c) := by
          rw [List.get?_map, hCg]
          rfl
        obtain ⟨hzc, hnzc⟩ := combo_addChunk hne hall
        have hFg : F.get? sF.pc = some (combo c) :=
          resolve_id_at hresF hVc hzc hnzc
        have hagree : ∀ q op2, c.get? q = some op2 →
            N.get? (sN.pc + q) = some op2 := by
          intro q op2 hq
          have hqlt : q < c.length := (List.get?_eq_some.1 hq).fst
          have hUq : U.get? (phi C sF.pc + q) = some op2 := by
            rw [← hUC, flatten_get hCg hqlt]
            exact hq
          have hmem : op2 ∈ c := List.get?_mem hq
          have hadd := hall op2 hmem
          have h1 : isJz op2 = false := by
            cases op2 <;> simp_all [isAdd, isJz]
          have h2 : isJnz op2 = false := by
            cases op2 <;> simp_all [isAdd, isJnz]
          rw [hpc]
          exact resolve_id_at hresN hUq h1 h2
        obtain ⟨fuel2, v, hfc, hv0, hvle, hveq, hrun2⟩ :=
          addRun c sN.pc fuel sN.mp sN.tape sN.out sN.steps t hall hagree
            (by omega) hrun
        have hv255 : v ≤ 255 := hvle hne
        have hFg2 : F.get? (St.mk sF.pc sF.mp sF.tape sF.out sF.steps).pc
            = some (.add ((c.map addVal).sum)) := by
          rw [combo_add_of_all hne hall] at hFg
          exact hFg
        have hsa : step F sF =
            (if ((sF.tape.getD sF.mp 0 : Int) + (c.map addVal).sum) > 255 then
               StepRes.fault .intOverflow
             else if ((sF.tape.getD sF.mp 0 : Int) + (c.map addVal).sum) < 0 then
               StepRes.fault .intUnderflow
             else StepRes.next ⟨sF.pc + 1, sF.mp,
               sF.tape.set sF.mp
                 ((sF.tape.getD sF.mp 0 : Int) + (c.map addVal).sum).toNat,
               sF.out, sF.steps + 1⟩) :=
          step_add hFg2
        have hvF : (sF.tape.getD sF.mp 0 : Int) + (c.map addVal).sum = v := by
          rw [← htape, ← hmp]
          exact hveq.symm
        have hstepF : step F sF = .next ⟨sF.pc + 1, sF.mp,
            sF.tape.set sF.mp v.toNat, sF.out, sF.steps + 1⟩ := by
          rw [hsa, hvF, if_neg (by omega), if_neg (by omega)]
        have hclen : 0 < c.length := List.length_pos.mpr hne
        obtain ⟨fuelF, t2, hle2, hrunF, ho, ht2, hm2⟩ :=
          ih fuel2 (by omega)
            ⟨sN.pc + c.length, sN.mp, sN.tape.set sN.mp v.toNat, sN.out,
              sN.steps + c.length⟩
            ⟨sF.pc + 1, sF.mp, sF.tape.set sF.mp v.toNat, sF.out,
              sF.steps + 1⟩ t
            hmp (by show sN.tape.set sN.mp v.toNat = sF.tape.set sF.mp v.toNat
                    rw [htape, hmp])
            hout (by show sF.pc + 1 ≤ C.length; omega)
            (by show sN.pc + c.length = phi C (sF.pc + 1)
                rw [phi_succ hCg, hpc])
            (by show (sN.tape.set sN.mp v.toNat).length = MEMSZ
                rw [List.length_set]
                exact hlen)
            hmplt hrun2
        refine ⟨fuelF + 1, t2, by omega, ?_, ho, ht2, hm2⟩
        rw [run_succ_next hstepF]
        exact hrunF
      · -- a Mov chunk
        have hVc : (C.map combo).get? sF.pc = some (combo c) := by
          rw [List.get?_map, hCg]
          rfl
        obtain ⟨hzc, hnzc⟩ := combo_movChunk hne hall
        have hFg : F.get? sF.pc = some (combo c) :=
          resolve_id_at hresF hVc hzc hnzc
        have hagree : ∀ q op2, c.get? q = some op2 →
            N.get? (sN.pc + q) = some op2 := by
          intro q op2 hq
          have hqlt : q < c.length := (List.get?_eq_some.1 hq).fst
          have hUq : U.get? (phi C sF.pc + q) = some op2 := by
            rw [← hUC, flatten_get hCg hqlt]
            exact hq
          have hmem : op2 ∈ c := List.get?_mem hq
          have hmov := hall op2 hmem
          have h1 : isJz op2 = false := by
            cases op2 <;> simp_all [isMov, isJz]
          have h2 : isJnz op2 = false := by
            cases op2 <;> simp_all [isMov, isJnz]
          rw [hpc]
          exact resolve_id_at hresN hUq h1 h2
        obtain ⟨fuel2, d, hfc, hd0, hdle, hdeq, hrun2⟩ :=
          movRun c sN.pc fuel sN.mp sN.tape sN.out sN.steps t hall hagree hrun
        have hdlt : d < (MEMSZ : Int) := hdle hne
        have hFg2 : F.get? (St.mk sF.pc sF.mp sF.tape sF.out sF.steps).pc
            = some (.mov ((c.map movVal).sum)) := by
          rw [combo_mov_of_all hne hall] at hFg
          exact hFg
        have hsa : step F sF =
            (if ((sF.mp : Int) + (c.map movVal).sum) ≥ (MEMSZ : Int) then
               StepRes.fault .memOverflow
             else if ((sF.mp : Int) + (c.map movVal).sum) < 0 then
               StepRes.fault .memUnderflow
             else StepRes.next ⟨sF.pc + 1,
               ((sF.mp : Int) + (c.map movVal).sum).toNat, sF.tape, sF.out,
               sF.steps + 1⟩) :=
          step_mov hFg2
        have hdF : (sF.mp : Int) + (c.map movVal).sum = d := by
          rw [← hmp]
          exact hdeq.symm
        have hstepF : step F sF = .next ⟨sF.pc + 1, d.toNat, sF.tape, sF.out,
            sF.steps + 1⟩ := by
          rw [hsa, hdF, if_neg (by omega), if_neg (by omega)]
        have hclen : 0 < c.length := List.length_pos.mpr hne
        obtain ⟨fuelF, t2, hle2, hrunF, ho, ht2, hm2⟩ :=
          ih fuel2 (by omega)
            ⟨sN.pc + c.length, d.toNat, sN.tape, sN.out, sN.steps + c.length⟩
            ⟨sF.pc + 1, d.toNat, sF.tape, sF.out, sF.steps + 1⟩ t
            rfl htape hout (by show sF.pc + 1 ≤ C.length; omega)
            (by show sN.pc + c.length = phi C (sF.pc + 1)
                rw [phi_succ hCg, hpc])
            hlen (by show d.toNat < MEMSZ
                     omega)
            hrun2
        refine ⟨fuelF + 1, t2, by omega, ?_, ho, ht2, hm2⟩
        rw [run_succ_next hstepF]
        exact hrunF
      · -- a singleton unfusable chunk
        subst hcop
        cases op with
        | add n => simp [isAdd] at hop1
        | mov n => simp [isMov] at hop2
        | put =>
          have hUo : U.get? (phi C sF.pc) = some Op.put := by
            have h0 := flatten_get hCg (q := 0) (by simp)
            rw [← hUC]
            simpa using h0
          have hNo : N.get? sN.pc = some Op.put := by
            rw [hpc]
            exact resolve_id_at hresN hUo rfl rfl
          have hVo : (C.map combo).get? sF.pc = some Op.put := by
            rw [List.get?_map, hCg]
            simp [combo_single]
          have hFo : F.get? sF.pc = some Op.put :=
            resolve_id_at hresF hVo rfl rfl
          match fuel with
          | 0 =>
            rw [run_zero] at hrun
            exact Outcome.noConfusion hrun
          | fuel + 1 =>
            have hstepN : step N sN = .next ⟨sN.pc + 1, sN.mp, sN.tape,
                sN.out ++ [sN.tape.getD sN.mp 0], sN.steps + 1⟩ :=
              step_put hNo
            rw [run_succ_next hstepN] at hrun
            have hstepF : step F sF = .next ⟨sF.pc + 1, sF.mp, sF.tape,
                sF.out ++ [sF.tape.getD sF.mp 0], sF.steps + 1⟩ :=
              step_put hFo
            obtain ⟨fuelF, t2, hle2, hrunF, ho, ht2, hm2⟩ :=
              ih fuel (by omega)
                ⟨sN.pc + 1, sN.mp, sN.tape,
                  sN.out ++ [sN.tape.getD sN.mp 0], sN.steps + 1⟩
                ⟨sF.pc + 1, sF.mp, sF.tape,
                  sF.out ++ [sF.tape.getD sF.mp 0], sF.steps + 1⟩ t
                hmp htape
                (by show sN.out ++ [sN.tape.getD sN.mp 0]
                      = sF.out ++ [sF.tape.getD sF.mp 0]
                    rw [hout, htape, hmp])
                (by show sF.pc + 1 ≤ C.length
                    omega)
                (by show sN.pc + 1 = phi C (sF.pc + 1)
                    rw [phi_succ hCg, hpc]
                    simp)
                hlen hmplt hrun
            refine ⟨fuelF + 1, t2, by omega, ?_, ho, ht2, hm2⟩
            rw [run_succ_next hstepF]
            exact hrunF
        | jz t0 =>
          have hUo : U.get? (phi C sF.pc) = some (Op.jz t0) := by
            have h0 := flatten_get hCg (q := 0) (by simp)
            rw [← hUC]
            simpa using h0
          obtain ⟨aN, hNo⟩ := resolve_jz_out hresN hUo
          have hVo : (C.map combo).get? sF.pc = some (Op.jz t0) := by
            rw [List.get?_map, hCg]
            simp [combo_single]
          obtain ⟨aF, hFo⟩ := resolve_jz_out hresF hVo
          have htgt : aN = phi C aF := target_fwd hgood hUC hresN hresF hFo hNo
          obtain ⟨hiaF, ⟨tF2, hFa⟩, _, _⟩ := resolved_jz_spec hresF sF.pc aF hFo
          obtain ⟨opVa, hVa, _, hjnza, _⟩ := resolve_get_inv hresF hFa
          obtain ⟨_, _, hphiA⟩ :=
            boundary_get hgood hVa (Or.inr (by rw [← hjnza]; rfl))
          have haFC : aF < C.length := by
            have h9 := (List.get?_eq_some.1 hFa).fst
            omega
          match fuel with
          | 0 =>
            rw [run_zero] at hrun
            exact Outcome.noConfusion hrun
          | fuel + 1 =>
            have hNo2 : N.get? sN.pc = some (Op.jz aN) := by
              rw [hpc]
              exact hNo
            have hstepN : step N sN = .next
                ⟨(if sN.tape.getD sN.mp 0 = 0 then aN else sN.pc) + 1, sN.mp,
                  sN.tape, sN.out, sN.steps + 1⟩ :=
              step_jz hNo2
            rw [run_succ_next hstepN] at hrun
            have hstepF : step F sF = .next
                ⟨(if sF.tape.getD sF.mp 0 = 0 then aF else sF.pc) + 1, sF.mp,
                  sF.tape, sF.out, sF.steps + 1⟩ :=
              step_jz hFo
            by_cases hz : sF.tape.getD sF.mp 0 = 0
            · have hzN : sN.tape.getD sN.mp 0 = 0 := by
                rw [htape, hmp]
                exact hz
              rw [if_pos hzN] at hrun
              obtain ⟨fuelF, t2, hle2, hrunF, ho, ht2, hm2⟩ :=
                ih fuel (by omega)
                  ⟨aN + 1, sN.mp, sN.tape, sN.out, sN.steps + 1⟩
                  ⟨aF + 1, sF.mp, sF.tape, sF.out, sF.steps + 1⟩ t
                  hmp htape hout (by show aF + 1 ≤ C.length; omega)
                  (by show aN + 1 = phi C (aF + 1)
                      rw [htgt, hphiA])
                  hlen hmplt hrun
              refine ⟨fuelF + 1, t2, by omega, ?_, ho, ht2, hm2⟩
              rw [run_succ_next hstepF, if_pos hz]
              exact hrunF
            · have hzN : ¬ sN.tape.getD sN.mp 0 = 0 := by
                rw [htape, hmp]
                exact hz
              rw [if_neg hzN] at hrun
              obtain ⟨fuelF, t2, hle2, hrunF, ho, ht2, hm2⟩ :=
                ih fuel (by omega)
                  ⟨sN.pc + 1, sN.mp, sN.tape, sN.out, sN.steps + 1⟩
                  ⟨sF.pc + 1, sF.mp, sF.tape, sF.out, sF.steps + 1⟩ t
                  hmp htape hout (by show sF.pc + 1 ≤ C.length; omega)
                  (by show sN.pc + 1 = phi C (sF.pc + 1)
                      rw [phi_succ hCg, hpc]
                      simp)
                  hlen hmplt hrun
              refine ⟨fuelF + 1, t2, by omega, ?_, ho, ht2, hm2⟩
              rw [run_succ_next hstepF, if_neg hz]
              exact hrunF
        | jnz t0 =>
          have hUo : U.get? (phi C sF.pc) = some (Op.jnz t0) := by
            have h0 := flatten_get hCg (q := 0) (by simp)
            rw [← hUC]
            simpa using h0
          obtain ⟨aN, hNo⟩ := resolve_jnz_out hresN hUo
          have hVo : (C.map combo).get? sF.pc = some (Op.jnz t0) := by
            rw [List.get?_map, hCg]
            simp [combo_single]
          obtain ⟨aF, hFo⟩ := resolve_jnz_out hresF hVo
          have htgt : aN = phi C aF := target_bwd hgood hUC hresN hresF hFo hNo
          obtain ⟨haFi, ⟨tF2, hFa⟩, _, _⟩ :=
            resolved_jnz_spec hresF sF.pc aF hFo
          obtain ⟨opVa, hVa, _, _, hjza⟩ := resolve_get_inv hresF hFa
          obtain ⟨_, _, hphiA⟩ :=
            boundary_get hgood hVa (Or.inl (by rw [← hjza]; rfl))
          have haFC : aF < C.length := by omega
          match fuel with
          | 0 =>
            rw [run_zero] at hrun
            exact Outcome.noConfusion hrun
          | fuel + 1 =>
            have hNo2 : N.get? sN.pc = some (Op.jnz aN) := by
              rw [hpc]
              exact hNo
            have hstepN : step N sN = .next
                ⟨(if sN.tape.getD sN.mp 0 ≠ 0 then aN else sN.pc) + 1, sN.mp,
                  sN.tape, sN.out, sN.steps + 1⟩ :=
              step_jnz hNo2
            rw [run_succ_next hstepN] at hrun
            have hstepF : step F sF = .next
                ⟨(if sF.tape.getD sF.mp 0 ≠ 0 then aF else sF.pc) + 1, sF.mp,
                  sF.tape, sF.out, sF.steps + 1⟩ :=
              step_jnz hFo
            by_cases hz : sF.tape.getD sF.mp 0 = 0
            · have hzN : ¬ sN.tape.getD sN.mp 0 ≠ 0 := by
                rw [htape, hmp]
                exact fun h2 => h2 hz
              rw [if_neg hzN] at hrun
              obtain ⟨fuelF, t2, hle2, hrunF, ho, ht2, hm2⟩ :=
                ih fuel (by omega)
                  ⟨sN.pc + 1, sN.mp, sN.tape, sN.out, sN.steps + 1⟩
                  ⟨sF.pc + 1, sF.mp, sF.tape, sF.out, sF.steps + 1⟩ t
                  hmp htape hout (by show sF.pc + 1 ≤ C.length; omega)
                  (by show sN.pc + 1 = phi C (sF.pc + 1)
                      rw [phi_succ hCg, hpc]
                      simp)
                  hlen hmplt hrun
              refine ⟨fuelF + 1, t2, by omega, ?_, ho, ht2, hm2⟩
              rw [run_succ_next hstepF, if_neg (fun h2 => h2 hz)]
              exact hrunF
            · have hzN : sN.tape.getD sN.mp 0 ≠ 0 := by
                rw [htape, hmp]
                exact hz
              rw [if_pos hzN] at hrun
              obtain ⟨fuelF, t2, hle2, hrunF, ho, ht2, hm2⟩ :=
                ih fuel (by omega)
                  ⟨aN + 1, sN.mp, sN.tape, sN.out, sN.steps + 1⟩
                  ⟨aF + 1, sF.mp, sF.tape, sF.out, sF.steps + 1⟩ t
                  hmp htape hout (by show aF + 1 ≤ C.length; omega)
                  (by show aN + 1 = phi C (aF + 1)
                      rw [htgt, hphiA])
                  hlen hmplt hrun
              refine ⟨fuelF + 1, t2, by omega, ?_, ho, ht2, hm2⟩
              rw [run_succ_next hstepF, if_pos hz]
              exact hrunF
    · -- the fused pc is at the end of the chunk list: both sides halt
      have hpcF : sF.pc = C.length := by omega
      have hpcN : sN.pc = N.length := by
        rw [hpc, hpcF, hlenN, hUlen]
      match fuel with
      | 0 =>
        rw [run_zero] at hrun
        exact Outcome.noConfusion hrun
      | fuel + 1 =>
        have hstepN : step N sN = .halt :=
          step_none (List.get?_eq_none.mpr (by omega))
        rw [run_succ_halt hstepN] at hrun
        injection hrun with hrun
        have hstepF : step F sF = .halt :=
          step_none (List.get?_eq_none.mpr (by omega))
        refine ⟨1, sF, by omega, run_succ_halt hstepF, ?_, ?_, ?_⟩
        · rw [← hrun]
          exact hout.symm
        · rw [← hrun]
          exact htape.symm
        · rw [← hrun]
          exact hmp.symm

end Interp

namespace Interp

theorem compileUnfused_eq (s : String) :
    compileUnfused s =
      match parseOps s.toList with
      | .error e => .error e
      | .ok [] => .error .emptyProgram
      | .ok (a :: rest) => resolve (a :: rest) := by
  rw [compileUnfused]
  cases hp : parseOps s.toList
  · rfl
  · rename_i u
    cases u <;> rfl

end Interp

open Interp in
/-- C1 counterexample: on the source `"-+"` the naive one-op-per-character
stream `[Add (-1), Add 1]` faults with `IntUnderflow` on its first step,
while the fused stream `[Add 0]` finishes normally with empty output and a
zeroed tape — so the fused and unfused executions do not agree on whether
a typed fault occurs. -/
theorem C1_counterexample :
    compileUnfused "-+" = .ok [.add (-1), .add 1] ∧
    compile "-+" = .ok [.add 0] ∧
    run [.add (-1), .add 1] 3 initSt = .fault .intUnderflow ∧
    run [.add 0] 2 initSt =
      .finished ⟨1, 0, (List.replicate MEMSZ 0).set 0 0, [], 1⟩ ∧
    (List.replicate MEMSZ 0).set 0 0 = initSt.tape := by
  exact ⟨rfl, rfl, rfl, rfl, rfl⟩

open Interp in
/-- C1 (amended): whenever the compile phase returns normally on the naive
one-op-per-character stream, it also returns normally on the fused stream,
and any finishing execution of the naive stream is matched by a finishing
execution of the fused stream with the same output, final tape and head
(using no more steps); fault behaviour, however, need not agree. -/
theorem C1_fusion_amended (s : String) (N : List Op)
    (hN : compileUnfused s = .ok N) :
    ∃ F, compile s = .ok F ∧
      ∀ fuel t, run N fuel initSt = .finished t →
        ∃ fuelF t2, fuelF ≤ fuel ∧ run F fuelF initSt = .finished t2 ∧
          t2.out = t.out ∧ t2.tape = t.tape ∧ t2.mp = t.mp := by
  rw [compileUnfused_eq] at hN
  match hp : parseOps s.toList with
  | .error e => rw [hp] at hN; exact Except.noConfusion hN
  | .ok [] => rw [hp] at hN; exact Except.noConfusion hN
  | .ok (a :: rest) =>
    rw [hp] at hN
    have hresN : resolve (a :: rest) = .ok N := hN
    have hbU : balGo 0 (a :: rest) = true := bal_of_resolve_ok hresN
    have hbV : balGo 0 ((chunks (a :: rest)).map combo) = true := by
      rw [← balGo_fuse]
      exact hbU
    obtain ⟨F, hresF⟩ := resolve_ok_of_bal hbV
    refine ⟨F, ?_, ?_⟩
    · rw [compile_eq, hp]
      show resolve (fuseGo a [] rest) = .ok F
      have hV : fuseGo a [] rest = (chunks (a :: rest)).map combo := by
        rw [fuse_eq]
        simp
      rw [hV]
      exact hresF
    · intro fuel t hrun
      exact sim_run (chunks_good (a :: rest)) (chunks_flatten (a :: rest))
        hresN hresF fuel initSt initSt t rfl rfl rfl (Nat.zero_le _) rfl
        (by rw [show initSt.tape = List.replicate MEMSZ 0 from rfl,
              List.length_replicate])
        (by show 0 < MEMSZ; decide) hrun

open Interp in
/-- Witness for C1 (amended) at the concrete source `"++."`: the naive
stream is `[Add 1, Add 1, Putchar]`, and the amended theorem produces a
fused run matching any finishing naive run. -/
theorem C1_fusion_amended_witness :
    ∃ F, compile "++." = .ok F ∧
      ∀ fuel t, run [.add 1, .add 1, .put] fuel initSt = .finished t →
        ∃ fuelF t2, fuelF ≤ fuel ∧ run F fuelF initSt = .finished t2 ∧
          t2.out = t.out ∧ t2.tape = t.tape ∧ t2.mp = t.mp :=
  C1_fusion_amended "++." [.add 1, .add 1, .put] (by rfl)
